import Mathlib

set_option maxRecDepth 40000

/-!
Verification of the EnriVision tar-streaming and resumable-upload engine.

The definitions below are a shallow embedding of `src/shared/tar.ts`
(header codec, layout planner, resumable byte stream) and of the
chunk-upload retry / loop logic of `AnalyzeMediaTool`
(`uploadChunkWithRetry`, `uploadImageSetAsMediaSetTar`).

Buffers are modelled as `List Nat` (each element one byte), JS numbers as
`Nat`/`Int`, and asynchronous file reads as a pure list of the bytes the
file yields.  Fallible construction is modelled with `Except`.
-/

namespace EnriVision

/-! ## Byte-buffer primitives -/

/-- Model of `bytes.copy(buf, offset, 0, n)`: overwrite `buf[offset …]`
with `src` (callers guarantee `offset + src.length ≤ buf.length`). -/
def writeBytes (buf : List Nat) (offset : Nat) (src : List Nat) : List Nat :=
  buf.take offset ++ src ++ buf.drop (offset + src.length)

/-- Contiguous sub-buffer `buf[offset … offset+n)`. -/
def slice (buf : List Nat) (offset n : Nat) : List Nat :=
  (buf.drop offset).take n

theorem writeBytes_length (buf : List Nat) (offset : Nat) (src : List Nat)
    (h : offset + src.length ≤ buf.length) :
    (writeBytes buf offset src).length = buf.length := by
  simp [writeBytes]
  omega

theorem writeBytes_getElem? (buf : List Nat) (offset : Nat) (src : List Nat)
    (h : offset + src.length ≤ buf.length) (i : Nat) :
    (writeBytes buf offset src)[i]? =
      if offset ≤ i ∧ i < offset + src.length then src[i - offset]? else buf[i]? := by
  unfold writeBytes
  have hto : (buf.take offset).length = offset := by
    simp; omega
  rw [List.getElem?_append, List.getElem?_append, List.length_append, hto]
  by_cases h1 : i < offset
  · rw [if_pos h1, if_pos (by omega), List.getElem?_take_of_lt h1]
    have : ¬ (offset ≤ i ∧ i < offset + src.length) := by omega
    rw [if_neg this]
  · by_cases h2 : i < offset + src.length
    · rw [if_pos (by omega : i < offset + src.length), if_neg h1]
      have : offset ≤ i ∧ i < offset + src.length := by omega
      rw [if_pos this]
    · rw [if_neg (by omega), List.getElem?_drop]
      have harith : offset + src.length + (i - (offset + src.length)) = i := by omega
      rw [harith]
      have : ¬ (offset ≤ i ∧ i < offset + src.length) := by omega
      rw [if_neg this]

theorem slice_length (buf : List Nat) (offset n : Nat) :
    (slice buf offset n).length = min n (buf.length - offset) := by
  simp [slice]

theorem slice_getElem? (buf : List Nat) (offset n i : Nat) :
    (slice buf offset n)[i]? = if i < n then buf[offset + i]? else none := by
  unfold slice
  by_cases h : i < n
  · rw [List.getElem?_take_of_lt h, List.getElem?_drop]
    simp [h]
  · simp [h, List.getElem?_eq_none_iff]
    omega

theorem slice_congr (l l' : List Nat) (offset n : Nat)
    (hlen : l.length = l'.length)
    (h : ∀ j, j < n → l[offset + j]? = l'[offset + j]?) :
    slice l offset n = slice l' offset n := by
  apply List.ext_getElem?
  intro i
  rw [slice_getElem?, slice_getElem?]
  by_cases hi : i < n
  · simp [hi, h i hi]
  · simp [hi]

/-- Writing into a region and then reading a disjoint region sees the
original buffer. -/
theorem slice_writeBytes_right (buf : List Nat) (offset : Nat) (src : List Nat)
    (h : offset + src.length ≤ buf.length) (o n : Nat) (hd : o + n ≤ offset) :
    slice (writeBytes buf offset src) o n = slice buf o n := by
  apply slice_congr _ _ _ _ (writeBytes_length _ _ _ h)
  intro j hj
  rw [writeBytes_getElem? _ _ _ h]
  have : ¬ (offset ≤ o + j ∧ o + j < offset + src.length) := by omega
  simp [this]

theorem slice_writeBytes_left (buf : List Nat) (offset : Nat) (src : List Nat)
    (h : offset + src.length ≤ buf.length) (o n : Nat) (hd : offset + src.length ≤ o) :
    slice (writeBytes buf offset src) o n = slice buf o n := by
  apply slice_congr _ _ _ _ (writeBytes_length _ _ _ h)
  intro j hj
  rw [writeBytes_getElem? _ _ _ h]
  have : ¬ (offset ≤ o + j ∧ o + j < offset + src.length) := by omega
  simp [this]

/-- Reading back exactly the written region. -/
theorem slice_writeBytes_self (buf : List Nat) (offset : Nat) (src : List Nat)
    (h : offset + src.length ≤ buf.length) :
    slice (writeBytes buf offset src) offset src.length = src := by
  apply List.ext_getElem?
  intro i
  rw [slice_getElem?]
  by_cases hi : i < src.length
  · rw [if_pos hi, writeBytes_getElem? _ _ _ h]
    have : offset ≤ offset + i ∧ offset + i < offset + src.length := by omega
    simp [this]
  · simp [hi, List.getElem?_eq_none_iff]
    omega

theorem sum_add_slice_eq (buf : List Nat) (offset n : Nat)
    (h : offset + n ≤ buf.length) :
    buf.sum = (buf.take offset).sum + (slice buf offset n).sum +
      (buf.drop (offset + n)).sum := by
  conv_lhs => rw [← List.take_append_drop offset buf]
  rw [List.sum_append]
  have hdrop : buf.drop offset = slice buf offset n ++ buf.drop (offset + n) := by
    unfold slice
    conv_lhs => rw [← List.take_append_drop n (buf.drop offset)]
    rw [List.drop_drop]
  rw [hdrop, List.sum_append]
  ring

theorem writeBytes_sum (buf : List Nat) (offset : Nat) (src : List Nat)
    (h : offset + src.length ≤ buf.length) :
    (writeBytes buf offset src).sum + (slice buf offset src.length).sum =
      buf.sum + src.sum := by
  rw [sum_add_slice_eq buf offset src.length h]
  simp [writeBytes, List.sum_append]
  ring

theorem writeBytes_all_lt (buf : List Nat) (offset : Nat) (src : List Nat) (m : Nat)
    (hb : ∀ b ∈ buf, b < m) (hs : ∀ b ∈ src, b < m) :
    ∀ b ∈ writeBytes buf offset src, b < m := by
  intro b hbmem
  unfold writeBytes at hbmem
  rcases List.mem_append.mp hbmem with h1 | h2
  · rcases List.mem_append.mp h1 with h3 | h4
    · exact hb b (List.mem_of_mem_take h3)
    · exact hs b h4
  · exact hb b (List.mem_of_mem_drop h2)

theorem sum_le_of_all_lt (l : List Nat) (m : Nat) (h : ∀ b ∈ l, b < m + 1) :
    l.sum ≤ l.length * m := by
  induction l with
  | nil => simp
  | cons a t ih =>
    simp only [List.sum_cons, List.length_cons]
    have ha : a ≤ m := Nat.lt_succ_iff.mp (h a (by simp))
    have ht := ih (fun b hb => h b (by simp [hb]))
    calc a + t.sum ≤ m + t.length * m := Nat.add_le_add ha ht
    _ = (t.length + 1) * m := by ring

/-! ## UTF-8 encoding (model of `Buffer.from(value, "utf8")`) -/

/-- Standard UTF-8 encoding of one scalar value. -/
def utf8EncodeChar (c : Char) : List Nat :=
  let n := c.toNat
  if n < 128 then [n]
  else if n < 2048 then [192 + n / 64, 128 + n % 64]
  else if n < 65536 then [224 + n / 4096, 128 + n / 64 % 64, 128 + n % 64]
  else [240 + n / 262144, 128 + n / 4096 % 64, 128 + n / 64 % 64, 128 + n % 64]

/-- UTF-8 bytes of a string (model of `Buffer.from(s, "utf8")` and of
`Buffer.byteLength(s, "utf8")` via its length). -/
def utf8Bytes (s : String) : List Nat :=
  (s.data.map utf8EncodeChar).flatten

theorem utf8EncodeChar_lt_256 (c : Char) : ∀ b ∈ utf8EncodeChar c, b < 256 := by
  intro b hb
  unfold utf8EncodeChar at hb
  have hc : c.toNat < 1114112 := by
    rcases c.valid with h | ⟨h1, h2⟩ <;> simp [Char.toNat] <;> omega
  by_cases h1 : c.toNat < 128
  · simp [h1] at hb
    omega
  · by_cases h2 : c.toNat < 2048
    · simp [h1, h2] at hb
      rcases hb with h | h <;> omega
    · by_cases h3 : c.toNat < 65536
      · simp [h1, h2, h3] at hb
        have : c.toNat / 4096 < 16 := by omega
        have : c.toNat / 64 % 64 < 64 := Nat.mod_lt _ (by omega)
        have : c.toNat % 64 < 64 := Nat.mod_lt _ (by omega)
        rcases hb with h | h | h <;> omega
      · simp [h1, h2, h3] at hb
        have : c.toNat / 262144 < 5 := by omega
        have : c.toNat / 4096 % 64 < 64 := Nat.mod_lt _ (by omega)
        have : c.toNat / 64 % 64 < 64 := Nat.mod_lt _ (by omega)
        have : c.toNat % 64 < 64 := Nat.mod_lt _ (by omega)
        rcases hb with h | h | h | h <;> omega

theorem utf8Bytes_lt_256 (s : String) : ∀ b ∈ utf8Bytes s, b < 256 := by
  intro b hb
  unfold utf8Bytes at hb
  rcases List.mem_flatten.mp hb with ⟨l, hl, hbl⟩
  rcases List.mem_map.mp hl with ⟨c, _, rfl⟩
  exact utf8EncodeChar_lt_256 c b hbl

/-- ASCII characters encode to their single code-point byte. -/
theorem utf8EncodeChar_ascii (c : Char) (h : c.toNat < 128) :
    utf8EncodeChar c = [c.toNat] := by
  simp [utf8EncodeChar, h]

theorem utf8Bytes_ascii (l : List Char) (h : ∀ c ∈ l, c.toNat < 128) :
    utf8Bytes (String.mk l) = l.map Char.toNat := by
  induction l with
  | nil => rfl
  | cons c t ih =>
    have hc := utf8EncodeChar_ascii c (h c (by simp))
    have ht := ih (fun x hx => h x (by simp [hx]))
    simp only [utf8Bytes, String.data] at ht ⊢
    simp [hc, ht]

/-! ## Octal rendering (model of `Number.prototype.toString(8)`) and parsing -/

/-- Octal digit character, mirroring the digits produced by `toString(8)`. -/
def octDigitChar : Nat → Char
  | 0 => '0'
  | 1 => '1'
  | 2 => '2'
  | 3 => '3'
  | 4 => '4'
  | 5 => '5'
  | 6 => '6'
  | _ => '7'

/-- Fuel-indexed octal rendering; the fuel only bounds the recursion
depth and `n` itself is always enough fuel. -/
def natToOctalF : Nat → Nat → List Char
  | 0, n => [octDigitChar n]
  | fuel + 1, n =>
    if n < 8 then [octDigitChar n]
    else natToOctalF fuel (n / 8) ++ [octDigitChar (n % 8)]

/-- Octal digit string of a natural number, mirroring `raw.toString(8)`. -/
def natToOctal (n : Nat) : List Char := natToOctalF n n

theorem natToOctalF_congr : ∀ (fuel fuel' n : Nat), n ≤ fuel → n ≤ fuel' →
    natToOctalF fuel n = natToOctalF fuel' n := by
  intro fuel
  induction fuel with
  | zero =>
    intro fuel' n hf hf'
    have hn : n = 0 := by omega
    subst hn
    cases fuel' with
    | zero => rfl
    | succ f => simp [natToOctalF]
  | succ f ihf =>
    intro fuel' n hf hf'
    by_cases h8 : n < 8
    · cases fuel' with
      | zero =>
        have hn : n = 0 := by omega
        subst hn
        simp [natToOctalF]
      | succ f' => simp [natToOctalF, h8]
    · cases fuel' with
      | zero => omega
      | succ f' =>
        simp only [natToOctalF, h8, if_false, ite_false]
        rw [ihf f' (n / 8) (by omega) (by omega)]

/-- The recursive characterisation of `toString(8)`. -/
theorem natToOctal_eq (n : Nat) :
    natToOctal n = if n < 8 then [octDigitChar n]
      else natToOctal (n / 8) ++ [octDigitChar (n % 8)] := by
  by_cases h8 : n < 8
  · unfold natToOctal
    cases hn : n with
    | zero => simp [natToOctalF]
    | succ m =>
      have h8' : m + 1 < 8 := hn ▸ h8
      simp only [natToOctalF]
      rw [if_pos h8', if_pos h8']
  · obtain ⟨m, rfl⟩ : ∃ m, n = m + 1 := ⟨n - 1, by omega⟩
    unfold natToOctal
    rw [if_neg h8]
    simp only [natToOctalF, h8, if_false, ite_false]
    rw [natToOctalF_congr m ((m + 1) / 8) ((m + 1) / 8) (by omega) (by omega)]

/-- Model of `String.prototype.padStart(len, c)`. -/
def padStart (len : Nat) (c : Char) (s : List Char) : List Char :=
  List.replicate (len - s.length) c ++ s

theorem octDigitChar_toNat (d : Nat) (h : d < 8) :
    (octDigitChar d).toNat = 48 + d := by
  interval_cases d <;> rfl

theorem octDigitChar_ascii (d : Nat) : (octDigitChar d).toNat < 128 := by
  unfold octDigitChar
  split <;> decide

theorem natToOctal_ascii (n : Nat) : ∀ c ∈ natToOctal n, c.toNat < 128 := by
  induction n using Nat.strong_induction_on with
  | _ n ih =>
    intro c hc
    rw [natToOctal_eq] at hc
    by_cases h : n < 8
    · simp [h] at hc
      subst hc
      exact octDigitChar_ascii n
    · simp [h] at hc
      rcases hc with hc | hc
      · exact ih (n / 8) (Nat.div_lt_self (by omega) (by omega)) c hc
      · subst hc
        exact octDigitChar_ascii (n % 8)

theorem natToOctal_digit_bytes (n : Nat) :
    ∀ c ∈ natToOctal n, 48 ≤ c.toNat ∧ c.toNat ≤ 55 := by
  induction n using Nat.strong_induction_on with
  | _ n ih =>
    intro c hc
    rw [natToOctal_eq] at hc
    by_cases h : n < 8
    · simp [h] at hc
      subst hc
      rw [octDigitChar_toNat n h]
      omega
    · simp [h] at hc
      rcases hc with hc | hc
      · exact ih (n / 8) (Nat.div_lt_self (by omega) (by omega)) c hc
      · subst hc
        rw [octDigitChar_toNat _ (Nat.mod_lt _ (by omega))]
        have := Nat.mod_lt n (y := 8) (by omega)
        omega

theorem natToOctal_length_le (n k : Nat) (hk : 1 ≤ k) (h : n < 8 ^ k) :
    (natToOctal n).length ≤ k := by
  induction k generalizing n with
  | zero => omega
  | succ k ih =>
    rw [natToOctal_eq]
    by_cases hn : n < 8
    · simp [hn]
    · simp [hn]
      have hk1 : 1 ≤ k := by
        by_contra hk0
        have : k = 0 := by omega
        subst this
        simp at h
        omega
      have hdiv : n / 8 < 8 ^ k := by
        apply (Nat.div_lt_iff_lt_mul (by omega)).mpr
        rw [← pow_succ]
        exact h
      exact ih (n / 8) hk1 hdiv

theorem natToOctal_length_pos (n : Nat) : 1 ≤ (natToOctal n).length := by
  rw [natToOctal_eq]
  by_cases hn : n < 8 <;> simp [hn]

/-- Fold octal-digit bytes into the value they denote. -/
def parseOctalDigits (l : List Nat) : Nat :=
  l.foldl (fun a b => a * 8 + (b - 48)) 0

/-- Whether a byte is an ASCII octal digit. -/
def isOctByte (b : Nat) : Bool := 48 ≤ b && b ≤ 55

/-- Parse a fixed-width octal-ASCII field: leading octal digits up to the
first non-digit (NUL / space / end). -/
def parseOctal (field : List Nat) : Nat :=
  parseOctalDigits (field.takeWhile isOctByte)

theorem foldl_octal_shift (l : List Nat) (a : Nat)
    (h : ∀ b ∈ l, 48 ≤ b ∧ b ≤ 55) :
    l.foldl (fun a b => a * 8 + (b - 48)) a =
      a * 8 ^ l.length + l.foldl (fun a b => a * 8 + (b - 48)) 0 := by
  induction l generalizing a with
  | nil => simp
  | cons x t ih =>
    simp only [List.foldl_cons, List.length_cons]
    rw [ih _ (fun b hb => h b (by simp [hb])), ih (0 * 8 + (x - 48)) (fun b hb => h b (by simp [hb]))]
    ring

theorem parseOctalDigits_natToOctal (n : Nat) :
    parseOctalDigits ((natToOctal n).map Char.toNat) = n := by
  induction n using Nat.strong_induction_on with
  | _ n ih =>
    rw [natToOctal_eq]
    by_cases h : n < 8
    · simp [h, parseOctalDigits, octDigitChar_toNat n h]
    · simp only [h, if_false, ite_false, List.map_append, List.map_cons, List.map_nil]
      unfold parseOctalDigits
      rw [List.foldl_append]
      have hdigits := natToOctal_digit_bytes (n / 8)
      have hrec := ih (n / 8) (Nat.div_lt_self (by omega) (by omega))
      unfold parseOctalDigits at hrec
      simp only [List.foldl_cons, List.foldl_nil]
      rw [hrec, octDigitChar_toNat _ (Nat.mod_lt _ (by omega))]
      have := Nat.mod_lt n (y := 8) (by omega)
      omega

theorem parseOctalDigits_pad (k : Nat) (l : List Nat) :
    parseOctalDigits (List.replicate k 48 ++ l) = parseOctalDigits l := by
  induction k with
  | zero => simp
  | succ k ih =>
    unfold parseOctalDigits at ih ⊢
    simp only [List.replicate_succ, List.cons_append, List.foldl_cons]
    simpa using ih

theorem takeWhile_append_stop (l : List Nat) (x : Nat) (rest : List Nat)
    (hl : ∀ b ∈ l, isOctByte b = true) (hx : isOctByte x = false) :
    (l ++ x :: rest).takeWhile isOctByte = l := by
  induction l with
  | nil => simp [List.takeWhile, hx]
  | cons a t ih =>
    have ha : isOctByte a = true := hl a (by simp)
    simp [ha]
    exact ih (fun b hb => hl b (by simp [hb]))

/-! ## Data model (`TarEntrySource`, `TarEntry`, `TarLayoutEntry`) -/

/-- Source for a tar entry.  A file-backed source carries, besides the
path and the declared `sizeBytes`, the list `content` of bytes that
reading the file yields (the pure stand-in for the file system). -/
inductive TarEntrySource where
  | buffer (buffer : List Nat)
  | file (path : String) (sizeBytes : Nat) (content : List Nat)
deriving DecidableEq, Repr

/-- Content size as computed by the source code
(`buffer.length` / declared `sizeBytes`). -/
def TarEntrySource.size : TarEntrySource → Nat
  | .buffer b => b.length
  | .file _ sz _ => sz

/-- Bytes a read of the source yields. -/
def TarEntrySource.bytes : TarEntrySource → List Nat
  | .buffer b => b
  | .file _ _ c => c

/-- A file-backed source is well-sized when the file really holds the
declared number of bytes (buffer sources always are). -/
def TarEntrySource.wellSized : TarEntrySource → Prop
  | .buffer _ => True
  | .file _ sz c => c.length = sz

instance : DecidablePred TarEntrySource.wellSized := by
  intro s
  cases s <;> simp [TarEntrySource.wellSized] <;> infer_instance

/-- Tar entry description. -/
structure TarEntry where
  name : String
  source : TarEntrySource
  mtimeSeconds : Int
deriving DecidableEq, Repr

/-- Layout element computed for a tar entry. -/
structure TarLayoutEntry where
  name : String
  header : List Nat
  source : TarEntrySource
  headerStart : Nat
  contentStart : Nat
  contentSize : Nat
  paddingSize : Nat
  totalSize : Nat
deriving DecidableEq, Repr

/-! ## Header codec (`buildUstarHeader` and helpers) -/

/-- Model of `writeString`: fixed-width string field (UTF-8, truncated
to the field width, null-padded by virtue of the zeroed buffer). -/
def writeString (buf : List Nat) (offset length : Nat) (value : String) : List Nat :=
  writeBytes buf offset ((utf8Bytes value).take length)

/-- Model of `writeOctal`: fixed-width octal number field. -/
def writeOctal (buf : List Nat) (offset length : Nat) (value : Nat) : List Nat :=
  let oct := natToOctal value
  let padded := padStart (length - 1) '0' oct
  writeString buf offset length (String.mk (padded ++ ['\x00']))

/-- Model of `computeTarChecksum`: sum of all header bytes. -/
def computeTarChecksum (buf : List Nat) : Nat := buf.sum

/-- Model of `writeChecksum`: 6 octal digits + null + space at 148. -/
def writeChecksum (buf : List Nat) (checksum : Nat) : List Nat :=
  let step1 := writeString buf 148 6 (String.mk (padStart 6 '0' (natToOctal checksum)))
  let step2 := writeBytes step1 154 [0]
  writeBytes step2 155 [32]

/-- Model of `buildUstarHeader`: ustar header block for a regular file. -/
def buildUstarHeader (name : String) (sizeBytes : Nat) (mtimeSeconds : Int) : List Nat :=
  let buf0 := List.replicate 512 0
  let buf1 := writeString buf0 0 100 name
  let buf2 := writeOctal buf1 100 8 420
  let buf3 := writeOctal buf2 108 8 0
  let buf4 := writeOctal buf3 116 8 0
  let buf5 := writeOctal buf4 124 12 sizeBytes
  let buf6 := writeOctal buf5 136 12 (max 0 mtimeSeconds).toNat
  let buf7 := writeBytes buf6 148 (List.replicate 8 32)
  let buf8 := writeBytes buf7 156 [48]
  let buf9 := writeString buf8 257 6 (String.mk ['u', 's', 't', 'a', 'r', '\x00'])
  let buf10 := writeString buf9 263 2 "00"
  let checksum := computeTarChecksum buf10
  writeChecksum buf10 checksum

/-! ## Name validation (`isSafeTarName`) -/

/-- The character set `String.prototype.trim` strips (ECMAScript
WhiteSpace and LineTerminator): TAB, LF, VT, FF, CR, SP, NBSP, the
Unicode Space_Separator characters U+1680, U+2000-U+200A, U+202F,
U+205F, U+3000, the line separators U+2028 and U+2029, and the BOM
U+FEFF. -/
def jsIsWhitespace (c : Char) : Bool :=
  c = ' ' || c = '\t' || c = '\n' || c = '\r' || c = '\x0b' || c = '\x0c' ||
    c = '\u00a0' || c = '\u1680' || ('\u2000' ≤ c && c ≤ '\u200a') ||
    c = '\u2028' || c = '\u2029' || c = '\u202f' || c = '\u205f' ||
    c = '\u3000' || c = '\ufeff'

/-- Model of `name.trim()`. -/
def jsTrim (s : String) : String :=
  String.mk (((s.data.dropWhile jsIsWhitespace).reverse.dropWhile jsIsWhitespace).reverse)

/-- One character of the `/^[A-Za-z0-9._-]{1,100}$/` character class. -/
def isSafeChar (c : Char) : Bool :=
  ('A' ≤ c && c ≤ 'Z') || ('a' ≤ c && c ≤ 'z') || ('0' ≤ c && c ≤ '9') ||
    c = '.' || c = '_' || c = '-'

/-- Model of `isSafeTarName`. -/
def isSafeTarName (name : String) : Bool :=
  let normalized := jsTrim name
  if normalized.data.isEmpty then false
  else if normalized.data.contains '\x00' then false
  else if normalized.data.contains '/' || normalized.data.contains '\\' ||
      normalized.data.contains ':' then false
  else
    let bytes := (utf8Bytes normalized).length
    decide (0 < bytes) && decide (bytes ≤ 100) &&
      (decide (1 ≤ normalized.data.length) && decide (normalized.data.length ≤ 100) &&
        normalized.data.all isSafeChar)

/-! ## Layout planner (`computeTarSizeBytes`, `TarStream` constructor) -/

/-- Model of `computePaddingSize`. -/
def computePaddingSize (sizeBytes : Nat) : Nat :=
  let m := sizeBytes % 512
  if m = 0 then 0 else 512 - m

/-- Model of `computeTarSizeBytes`: total tar size including the
1024-byte end marker, computed without reading any content. -/
def computeTarSizeBytes (entries : List TarEntry) : Nat :=
  (entries.foldl
    (fun total entry =>
      total + 512 + entry.source.size + computePaddingSize entry.source.size)
    0) + 1024

/-- The `TarStream` object state: precomputed layout and total size. -/
structure TarStreamModel where
  layout : List TarLayoutEntry
  totalSizeBytes : Nat
deriving DecidableEq, Repr

/-- The constructor loop of `TarStream`: walk the entries accumulating a
cursor, throwing on the first invalid name. -/
def buildLayout : List TarEntry → Nat → Except String (List TarLayoutEntry × Nat)
  | [], cursor => .ok ([], cursor)
  | entry :: rest, cursor =>
    if isSafeTarName entry.name then
      let contentSize := entry.source.size
      let header := buildUstarHeader entry.name contentSize entry.mtimeSeconds
      let paddingSize := computePaddingSize contentSize
      let totalSize := 512 + contentSize + paddingSize
      match buildLayout rest (cursor + totalSize) with
      | .ok (layouts, finalCursor) =>
        .ok ({ name := entry.name, header := header, source := entry.source,
               headerStart := cursor, contentStart := cursor + 512,
               contentSize := contentSize, paddingSize := paddingSize,
               totalSize := totalSize } :: layouts, finalCursor)
      | .error e => .error e
    else .error ("Invalid tar entry name: " ++ entry.name)

/-- Model of `new TarStream(entries)`: `.ok` with the stream state, or
`.error` when the constructor throws. -/
def TarStream.mk? (entries : List TarEntry) : Except String TarStreamModel :=
  match buildLayout entries 0 with
  | .ok (layout, cursor) => .ok { layout := layout, totalSizeBytes := cursor + 1024 }
  | .error e => .error e

/-- Model of `TarStream.getSizeBytes`. -/
def TarStream.getSizeBytes (t : TarStreamModel) : Nat := t.totalSizeBytes

/-! ## Read cursor (`seek`, `readNext`, `iterateChunks`)

The JS read state also holds an optional open file handle; handles do
not affect the bytes produced, so the model keeps only the byte-relevant
fields `{phase, entryIndex, phaseOffset}`. -/

inductive Phase where
  | entry_header
  | entry_content
  | entry_padding
  | eof
deriving DecidableEq, Repr

structure ReadState where
  phase : Phase
  entryIndex : Nat
  phaseOffset : Nat
deriving DecidableEq, Repr

/-- Fallback for the (unreachable) out-of-range layout lookup
`this.layout[state.entryIndex]!`. -/
def defaultLayoutEntry : TarLayoutEntry :=
  { name := "", header := [], source := .buffer [], headerStart := 0,
    contentStart := 0, contentSize := 0, paddingSize := 0, totalSize := 0 }

/-- Model of `TarStream.seek`: locate the entry and sub-phase owning an
absolute offset by a linear scan over cumulative entry sizes. -/
def seekAux : List TarLayoutEntry → Nat → Nat → ReadState
  | [], i, offset => { phase := .eof, entryIndex := i, phaseOffset := offset }
  | entry :: rest, i, offset =>
    if offset < entry.totalSize then
      if offset < 512 then
        { phase := .entry_header, entryIndex := i, phaseOffset := offset }
      else if offset - 512 < entry.contentSize then
        { phase := .entry_content, entryIndex := i, phaseOffset := offset - 512 }
      else
        { phase := .entry_padding, entryIndex := i,
          phaseOffset := offset - 512 - entry.contentSize }
    else seekAux rest (i + 1) (offset - entry.totalSize)

def TarStream.seek (t : TarStreamModel) (offset : Nat) : ReadState :=
  seekAux t.layout 0 offset

/-- Model of `TarStream.readNext`: read up to `maxBytes` from the state
and advance it.  Returns the new state and the bytes read. -/
def readNext (layout : List TarLayoutEntry) (s : ReadState) (maxBytes : Nat) :
    ReadState × List Nat :=
  let want := max 1 maxBytes
  match s.phase with
  | .eof =>
    let remaining := 1024 - s.phaseOffset
    if remaining = 0 then (s, [])
    else
      let take := min want remaining
      ({ s with phaseOffset := s.phaseOffset + take }, List.replicate take 0)
  | .entry_header =>
    let entry := layout.getD s.entryIndex defaultLayoutEntry
    let remaining := 512 - s.phaseOffset
    let take := min want remaining
    let out := slice entry.header s.phaseOffset take
    if s.phaseOffset + take ≥ 512 then
      ({ phase := .entry_content, entryIndex := s.entryIndex, phaseOffset := 0 }, out)
    else
      ({ s with phaseOffset := s.phaseOffset + take }, out)
  | .entry_content =>
    let entry := layout.getD s.entryIndex defaultLayoutEntry
    let remaining := entry.contentSize - s.phaseOffset
    if remaining = 0 then
      ({ phase := .entry_padding, entryIndex := s.entryIndex, phaseOffset := 0 }, [])
    else
      let take := min want remaining
      match entry.source with
      | .buffer b =>
        let out := slice b s.phaseOffset take
        if s.phaseOffset + take ≥ entry.contentSize then
          ({ phase := .entry_padding, entryIndex := s.entryIndex, phaseOffset := 0 }, out)
        else
          ({ s with phaseOffset := s.phaseOffset + take }, out)
      | .file _ _ content =>
        let bytesRead := min take (content.length - s.phaseOffset)
        if bytesRead = 0 then
          ({ phase := .entry_padding, entryIndex := s.entryIndex, phaseOffset := 0 }, [])
        else
          let out := slice content s.phaseOffset bytesRead
          if s.phaseOffset + bytesRead ≥ entry.contentSize then
            ({ phase := .entry_padding, entryIndex := s.entryIndex, phaseOffset := 0 }, out)
          else
            ({ s with phaseOffset := s.phaseOffset + bytesRead }, out)
  | .entry_padding =>
    let entry := layout.getD s.entryIndex defaultLayoutEntry
    let remaining := entry.paddingSize - s.phaseOffset
    if remaining = 0 then
      if s.entryIndex + 1 ≥ layout.length then
        ({ phase := .eof, entryIndex := s.entryIndex + 1, phaseOffset := 0 }, [])
      else
        ({ phase := .entry_header, entryIndex := s.entryIndex + 1, phaseOffset := 0 }, [])
    else
      let take := min want remaining
      if s.phaseOffset + take ≥ entry.paddingSize then
        if s.entryIndex + 1 ≥ layout.length then
          ({ phase := .eof, entryIndex := s.entryIndex + 1, phaseOffset := 0 },
            List.replicate take 0)
        else
          ({ phase := .entry_header, entryIndex := s.entryIndex + 1, phaseOffset := 0 },
            List.replicate take 0)
      else
        ({ s with phaseOffset := s.phaseOffset + take }, List.replicate take 0)

/-- The inner `while (remaining > 0)` loop of `iterateChunks`: gather up
to `remaining` bytes, giving up after more than 50 consecutive empty
reads.  Returns the final state and the concatenated bytes read. -/
def readParts (layout : List TarLayoutEntry) (s : ReadState)
    (remaining emptyReads : Nat) : ReadState × List Nat :=
  if h0 : remaining = 0 then (s, [])
  else
    let res := readNext layout s remaining
    if hemp : res.2.isEmpty then
      if emptyReads + 1 > 50 then (res.1, [])
      else readParts layout res.1 remaining (emptyReads + 1)
    else
      let rec2 := readParts layout res.1 (remaining - res.2.length) 0
      (rec2.1, res.2 ++ rec2.2)
termination_by (remaining, 51 - emptyReads)
decreasing_by
  · exact Prod.Lex.right _ (by omega)
  · have hne : (readNext layout s remaining).2.length ≠ 0 := by
      simpa [List.isEmpty_iff_length_eq_zero] using hemp
    exact Prod.Lex.left _ _ (by omega)

/-- The outer `while (position < totalSizeBytes)` loop of
`iterateChunks`: one yielded chunk per iteration. -/
def chunkLoop (layout : List TarLayoutEntry) (total position : Nat)
    (s : ReadState) (chunk : Nat) : List (List Nat) :=
  if h : position < total then
    let desired := min chunk (total - position)
    let res := readParts layout s desired 0
    if hout : res.2.isEmpty then []
    else res.2 :: chunkLoop layout total (position + res.2.length) res.1 chunk
  else []
termination_by total - position
decreasing_by
  have hne : (readParts layout s (min chunk (total - position)) 0).2.length ≠ 0 := by
    simpa [List.isEmpty_iff_length_eq_zero] using hout
  omega

/-- Model of `TarStream.iterateChunks`: the yielded chunks, in order.
The JS arguments are arbitrary numbers that the code floors and clamps
immediately; the integer model applies the same `Math.max` clamps. -/
def TarStream.iterateChunks (t : TarStreamModel) (startOffset chunkSize : Int) :
    List (List Nat) :=
  let normalizedStart := (max 0 startOffset).toNat
  let normalizedChunk := (max 1 chunkSize).toNat
  if normalizedStart ≥ t.totalSizeBytes then []
  else
    chunkLoop t.layout t.totalSizeBytes normalizedStart
      (TarStream.seek t normalizedStart) normalizedChunk

/-! ## Resumable upload client (`uploadChunkWithRetry`, tar upload loop)

The EnriProxy client is modelled as two response oracles indexed by a
global call counter: `append n` is the outcome of the `n`-th
`appendUploadChunk` call and `getOffset n` the answer of the `n`-th
`getUploadOffset` call.  Errors carry the HTTP status when the failure
is an `EnriProxyHttpError`. -/

inductive ChunkError where
  | http (status : Nat)
  | other (msg : String)
deriving DecidableEq, Repr

structure ProxyClient where
  append : Nat → Except ChunkError Nat
  getOffset : Nat → Nat

/-- Non-retryable client-error statuses of `uploadChunkWithRetry`
(409 is handled separately). -/
def isNoRetryStatus (e : ChunkError) : Bool :=
  match e with
  | .http s => s = 400 || s = 401 || s = 403 || s = 404 || s = 410 || s = 413
  | .other _ => false

/-- The `for (let attempt = 1; …)` loop of `uploadChunkWithRetry` with
`fuel` remaining attempts (initially 5; the current attempt is the last
one when `fuel = 1`, matching `attempt === maxAttempts`).  Backoff
delays do not affect the result and are elided.  Threads the append /
offset-query call counters `ac` / `gc`. -/
def uploadChunkWithRetryGo (client : ProxyClient) (offset : Nat) :
    Nat → Nat → Nat → Except ChunkError Nat × Nat × Nat
  | 0, ac, gc => (.error (.other "Upload failed after retries."), ac, gc)
  | fuel + 1, ac, gc =>
    match client.append ac with
    | .ok n => (.ok n, ac + 1, gc)
    | .error e =>
      match e with
      | .http 409 =>
        let actual := client.getOffset gc
        if actual ≠ offset then (.ok actual, ac + 1, gc + 1)
        else if isNoRetryStatus e then (.error e, ac + 1, gc + 1)
        else if fuel = 0 then (.error e, ac + 1, gc + 1)
        else uploadChunkWithRetryGo client offset fuel (ac + 1) (gc + 1)
      | _ =>
        if isNoRetryStatus e then (.error e, ac + 1, gc)
        else if fuel = 0 then (.error e, ac + 1, gc)
        else uploadChunkWithRetryGo client offset fuel (ac + 1) gc

def uploadChunkWithRetry (client : ProxyClient) (offset ac gc : Nat) :
    Except ChunkError Nat × Nat × Nat :=
  uploadChunkWithRetryGo client offset 5 ac gc

/-- The `for await (const chunk of tar.iterateChunks(offset, chunkSize))`
body of `uploadImageSetAsMediaSetTar`: send chunks until an error, an
offset resync, or completion.  Returns `.error e` when
`uploadChunkWithRetry` raised, otherwise the offset after leaving the
loop together with the `madeProgress` flag and the call counters. -/
def sendChunks (client : ProxyClient) (tarSize : Nat) :
    Nat → Nat → Nat → Bool → List (List Nat) →
      Except ChunkError (Nat × Bool) × Nat × Nat
  | offset, ac, gc, made, [] => (.ok (offset, made), ac, gc)
  | offset, ac, gc, made, chunk :: rest =>
    if chunk.length = 0 then sendChunks client tarSize offset ac gc made rest
    else
      match uploadChunkWithRetry client offset ac gc with
      | (.error e, ac', gc') => (.error e, ac', gc')
      | (.ok nextOffset, ac', gc') =>
        if nextOffset ≠ offset + chunk.length then (.ok (nextOffset, true), ac', gc')
        else if nextOffset ≥ tarSize then (.ok (nextOffset, true), ac', gc')
        else sendChunks client tarSize nextOffset ac' gc' true rest

/-- Result of the multi-file upload loop. -/
inductive UploadResult where
  | completed (uploadOffset : Nat)
  | chunkError (e : ChunkError)
  | stalled
  | incomplete (offset : Nat)
  | outOfFuel
deriving DecidableEq, Repr

/-- The `while (offset < tarSizeBytes)` loop of
`uploadImageSetAsMediaSetTar` (fuel bounds the number of outer
iterations; the real loop may iterate unboundedly when the server keeps
moving the offset).  `stalled` is the distinct
`"Upload stalled: no progress while sending tar chunks."` error and
`incomplete` the final `"Upload incomplete"` check. -/
def uploadTarLoop (client : ProxyClient) (t : TarStreamModel) (chunkSize : Int) :
    Nat → Nat → Nat → Nat → UploadResult
  | _offset, _ac, _gc, 0 => .outOfFuel
  | offset, ac, gc, fuel + 1 =>
    if offset < t.totalSizeBytes then
      match sendChunks client t.totalSizeBytes offset ac gc false
          (TarStream.iterateChunks t (offset : Int) chunkSize) with
      | (.error e, _, _) => .chunkError e
      | (.ok (offset', made), ac', gc') =>
        if made then uploadTarLoop client t chunkSize offset' ac' gc' fuel
        else .stalled
    else if offset = t.totalSizeBytes then .completed offset
    else .incomplete offset

/-! ## Stream semantics: the bytes a layout denotes -/

/-- All bytes contributed by one layout entry. -/
def entryBytes (e : TarLayoutEntry) : List Nat :=
  e.header ++ e.source.bytes ++ List.replicate e.paddingSize 0

/-- Bytes of the archive from entry `i` on, end marker included. -/
def restBytes (layout : List TarLayoutEntry) (i : Nat) : List Nat :=
  ((layout.drop i).map entryBytes).flatten ++ List.replicate 1024 0

/-- The whole archive as one byte list. -/
def archiveBytes (layout : List TarLayoutEntry) : List Nat :=
  restBytes layout 0

/-- Well-formedness of a layout entry: rendered header block, declared
content size matching the bytes a read yields, coherent total. -/
def WFLayoutEntry (e : TarLayoutEntry) : Prop :=
  e.header.length = 512 ∧ e.source.bytes.length = e.contentSize ∧
    e.totalSize = 512 + e.contentSize + e.paddingSize

def WFLayout (layout : List TarLayoutEntry) : Prop :=
  ∀ e ∈ layout, WFLayoutEntry e

/-- Bytes still to be produced from a read state. -/
def stateBytes (layout : List TarLayoutEntry) (s : ReadState) : List Nat :=
  match s.phase with
  | .entry_header =>
    let e := layout.getD s.entryIndex defaultLayoutEntry
    e.header.drop s.phaseOffset ++ e.source.bytes ++ List.replicate e.paddingSize 0 ++
      restBytes layout (s.entryIndex + 1)
  | .entry_content =>
    let e := layout.getD s.entryIndex defaultLayoutEntry
    e.source.bytes.drop s.phaseOffset ++ List.replicate e.paddingSize 0 ++
      restBytes layout (s.entryIndex + 1)
  | .entry_padding =>
    let e := layout.getD s.entryIndex defaultLayoutEntry
    List.replicate (e.paddingSize - s.phaseOffset) 0 ++ restBytes layout (s.entryIndex + 1)
  | .eof => List.replicate (1024 - s.phaseOffset) 0

/-- Reachable read states. -/
def WFState (layout : List TarLayoutEntry) (s : ReadState) : Prop :=
  match s.phase with
  | .entry_header => s.entryIndex < layout.length ∧ s.phaseOffset < 512
  | .entry_content => s.entryIndex < layout.length ∧
      s.phaseOffset ≤ (layout.getD s.entryIndex defaultLayoutEntry).contentSize
  | .entry_padding => s.entryIndex < layout.length ∧
      s.phaseOffset ≤ (layout.getD s.entryIndex defaultLayoutEntry).paddingSize
  | .eof => s.phaseOffset ≤ 1024

/-- How many consecutive empty reads are still possible from a state
whose remaining byte list is non-empty (used to show the 50-empty-read
bailout never fires on a reachable state). -/
def emptyBudget (s : ReadState) : Nat :=
  match s.phase with
  | .entry_header => 0
  | .entry_content => 2
  | .entry_padding => 1
  | .eof => 0

theorem emptyBudget_le_two (s : ReadState) : emptyBudget s ≤ 2 := by
  unfold emptyBudget
  cases s.phase <;> simp

theorem WFLayout.entry (layout : List TarLayoutEntry) (hwf : WFLayout layout)
    (i : Nat) (hi : i < layout.length) :
    WFLayoutEntry (layout.getD i defaultLayoutEntry) := by
  rw [List.getD_eq_getElem _ _ hi]
  exact hwf _ (List.getElem_mem hi)

theorem restBytes_cons (layout : List TarLayoutEntry) (i : Nat)
    (hi : i < layout.length) :
    restBytes layout i =
      entryBytes (layout.getD i defaultLayoutEntry) ++ restBytes layout (i + 1) := by
  unfold restBytes
  rw [List.getD_eq_getElem _ _ hi, List.drop_eq_getElem_cons hi]
  simp only [List.map_cons, List.flatten_cons, List.append_assoc]

theorem restBytes_nil (layout : List TarLayoutEntry) (i : Nat)
    (hi : layout.length ≤ i) :
    restBytes layout i = List.replicate 1024 0 := by
  unfold restBytes
  rw [List.drop_eq_nil_of_le hi]
  simp only [List.map_nil, List.flatten_nil, List.nil_append]

theorem entryBytes_length (e : TarLayoutEntry) (he : WFLayoutEntry e) :
    (entryBytes e).length = e.totalSize := by
  obtain ⟨h1, h2, h3⟩ := he
  simp [entryBytes, h1, h2, h3]
  omega

end EnriVision

namespace EnriVision

theorem drop_slice_append (l : List Nat) (po take : Nat) :
    l.drop po = slice l po take ++ l.drop (po + take) := by
  unfold slice
  conv_lhs => rw [← List.take_append_drop take (l.drop po)]
  rw [List.drop_drop]

theorem readNext_spec_eof (layout : List TarLayoutEntry) (i po w : Nat)
    (hpo : po ≤ 1024)
    (hne : stateBytes layout ⟨Phase.eof, i, po⟩ ≠ []) :
    stateBytes layout ⟨Phase.eof, i, po⟩ =
        (readNext layout ⟨Phase.eof, i, po⟩ w).2 ++
          stateBytes layout (readNext layout ⟨Phase.eof, i, po⟩ w).1 ∧
      WFState layout (readNext layout ⟨Phase.eof, i, po⟩ w).1 ∧
      (readNext layout ⟨Phase.eof, i, po⟩ w).2.length ≤ max 1 w ∧
      (readNext layout ⟨Phase.eof, i, po⟩ w).2 ≠ [] := by
  have hpos : 1024 - po ≠ 0 := by
    intro h0
    apply hne
    simp [stateBytes, h0]
  have hr : readNext layout ⟨Phase.eof, i, po⟩ w =
      (⟨Phase.eof, i, po + min (max 1 w) (1024 - po)⟩,
        List.replicate (min (max 1 w) (1024 - po)) 0) := by
    simp [readNext, hpos]
  rw [hr]
  refine ⟨?_, ?_, ?_, ?_⟩
  · simp only [stateBytes]
    rw [← List.replicate_add]
    congr 1
    omega
  · simp only [WFState]
    omega
  · rw [List.length_replicate]
    exact Nat.min_le_left _ _
  · simp
    omega

theorem readNext_spec_header (layout : List TarLayoutEntry)
    (hwf : WFLayout layout) (i po w : Nat)
    (hi : i < layout.length) (hpo : po < 512) :
    stateBytes layout ⟨Phase.entry_header, i, po⟩ =
        (readNext layout ⟨Phase.entry_header, i, po⟩ w).2 ++
          stateBytes layout (readNext layout ⟨Phase.entry_header, i, po⟩ w).1 ∧
      WFState layout (readNext layout ⟨Phase.entry_header, i, po⟩ w).1 ∧
      (readNext layout ⟨Phase.entry_header, i, po⟩ w).2.length ≤ max 1 w ∧
      (readNext layout ⟨Phase.entry_header, i, po⟩ w).2 ≠ [] := by
  obtain ⟨hh, hb, ht⟩ := WFLayout.entry layout hwf i hi
  set e := layout.getD i defaultLayoutEntry with he
  have he2 : layout[i]?.getD defaultLayoutEntry = e := by rw [he, List.getD_eq_getElem?_getD]
  set take := min (max 1 w) (512 - po) with htake
  have htake1 : 1 ≤ take := by omega
  have htake2 : take ≤ 512 - po := by omega
  have hout_len : (slice e.header po take).length = take := by
    rw [slice_length, hh]
    omega
  have hout_ne : slice e.header po take ≠ [] := by
    intro h0
    rw [h0] at hout_len
    simp at hout_len
    omega
  have hcons : e.header.drop po = slice e.header po take ++ e.header.drop (po + take) :=
    drop_slice_append _ _ _
  by_cases hcut : po + take ≥ 512
  · have hr : readNext layout ⟨Phase.entry_header, i, po⟩ w =
        (⟨Phase.entry_content, i, 0⟩, slice e.header po take) := by
      simp [readNext, he2, ← htake, hcut]
    rw [hr]
    refine ⟨?_, ?_, ?_, hout_ne⟩
    · simp only [stateBytes, ← he]
      rw [hcons, List.drop_eq_nil_of_le (by rw [hh]; omega), List.append_nil]
      simp [List.append_assoc]
    · simp only [WFState, ← he]
      omega
    · rw [hout_len]
      omega
  · have hr : readNext layout ⟨Phase.entry_header, i, po⟩ w =
        (⟨Phase.entry_header, i, po + take⟩, slice e.header po take) := by
      simp [readNext, he2, ← htake, hcut]
    rw [hr]
    refine ⟨?_, ?_, ?_, hout_ne⟩
    · simp only [stateBytes, ← he]
      rw [hcons]
      simp [List.append_assoc]
    · simp only [WFState, ← he]
      omega
    · rw [hout_len]
      omega

end EnriVision

namespace EnriVision

theorem readNext_spec_content (layout : List TarLayoutEntry)
    (hwf : WFLayout layout) (i po w : Nat) (hi : i < layout.length)
    (hpo : po ≤ (layout.getD i defaultLayoutEntry).contentSize) :
    stateBytes layout ⟨Phase.entry_content, i, po⟩ =
        (readNext layout ⟨Phase.entry_content, i, po⟩ w).2 ++
          stateBytes layout (readNext layout ⟨Phase.entry_content, i, po⟩ w).1 ∧
      WFState layout (readNext layout ⟨Phase.entry_content, i, po⟩ w).1 ∧
      (readNext layout ⟨Phase.entry_content, i, po⟩ w).2.length ≤ max 1 w ∧
      ((readNext layout ⟨Phase.entry_content, i, po⟩ w).2 = [] →
        (readNext layout ⟨Phase.entry_content, i, po⟩ w).1 =
          ⟨Phase.entry_padding, i, 0⟩) := by
  obtain ⟨hh, hb, ht⟩ := WFLayout.entry layout hwf i hi
  set e := layout.getD i defaultLayoutEntry with he
  have he2 : layout[i]?.getD defaultLayoutEntry = e := by
    rw [he, List.getD_eq_getElem?_getD]
  by_cases h0 : e.contentSize - po = 0
  · have hr : readNext layout ⟨Phase.entry_content, i, po⟩ w =
        (⟨Phase.entry_padding, i, 0⟩, []) := by
      simp [readNext, he2, h0]
    rw [hr]
    refine ⟨?_, ?_, by simp, fun _ => rfl⟩
    · simp only [stateBytes, ← he]
      rw [List.drop_eq_nil_of_le (by omega), List.nil_append, List.nil_append,
        Nat.sub_zero]
    · simp only [WFState, ← he]
      omega
  · set take := min (max 1 w) (e.contentSize - po) with htake
    have htake1 : 1 ≤ take := by omega
    have htake2 : take ≤ e.contentSize - po := by omega
    have hcons : e.source.bytes.drop po =
        slice e.source.bytes po take ++ e.source.bytes.drop (po + take) :=
      drop_slice_append _ _ _
    have hout_len : (slice e.source.bytes po take).length = take := by
      rw [slice_length, hb]
      omega
    have hout_ne : slice e.source.bytes po take ≠ [] := by
      intro hx
      rw [hx] at hout_len
      simp at hout_len
      omega
    by_cases hcut : po + take ≥ e.contentSize
    all_goals {
      have hr : readNext layout ⟨Phase.entry_content, i, po⟩ w =
          (if po + take ≥ e.contentSize then ⟨Phase.entry_padding, i, 0⟩
            else ⟨Phase.entry_content, i, po + take⟩,
            slice e.source.bytes po take) := by
        cases hsrc : e.source with
        | buffer b =>
          have hbb : e.source.bytes = b := by rw [hsrc]; rfl
          simp [readNext, he2, h0, hsrc, ← htake, hbb, TarEntrySource.bytes]
          split <;> rfl
        | file p sz content =>
          have hbb : e.source.bytes = content := by rw [hsrc]; rfl
          have hclen : content.length = e.contentSize := by rw [← hbb, hb]
          have hread : min take (content.length - po) = take := by
            rw [hclen]
            omega
          have hread0 : min take (content.length - po) ≠ 0 := by
            rw [hread]
            omega
          have htne : take ≠ 0 := by omega
          simp [readNext, he2, h0, hsrc, ← htake, hbb, hread, hread0, htne, TarEntrySource.bytes]
          split <;> rfl
      rw [hr]
      simp only [hcut, if_true, if_false, ite_true, ite_false]
      refine ⟨?_, ?_, by rw [hout_len]; omega, fun hx => absurd hx hout_ne⟩
      · simp only [stateBytes, ← he]
        rw [hcons]
        try rw [List.drop_eq_nil_of_le (by rw [hb]; omega), List.append_nil]
        simp [List.append_assoc]
      · simp only [WFState, ← he]
        omega
    }

end EnriVision

namespace EnriVision

set_option maxRecDepth 8000 in
theorem readNext_spec_padding (layout : List TarLayoutEntry)
    (hwf : WFLayout layout) (i po w : Nat) (hi : i < layout.length)
    (hpo : po ≤ (layout.getD i defaultLayoutEntry).paddingSize) :
    stateBytes layout ⟨Phase.entry_padding, i, po⟩ =
        (readNext layout ⟨Phase.entry_padding, i, po⟩ w).2 ++
          stateBytes layout (readNext layout ⟨Phase.entry_padding, i, po⟩ w).1 ∧
      WFState layout (readNext layout ⟨Phase.entry_padding, i, po⟩ w).1 ∧
      (readNext layout ⟨Phase.entry_padding, i, po⟩ w).2.length ≤ max 1 w ∧
      ((readNext layout ⟨Phase.entry_padding, i, po⟩ w).2 = [] →
        (readNext layout ⟨Phase.entry_padding, i, po⟩ w).1.phase = Phase.entry_header ∨
          (readNext layout ⟨Phase.entry_padding, i, po⟩ w).1.phase = Phase.eof) := by
  obtain ⟨hh, hb, ht⟩ := WFLayout.entry layout hwf i hi
  set e := layout.getD i defaultLayoutEntry with he
  have he2 : layout[i]?.getD defaultLayoutEntry = e := by
    rw [he, List.getD_eq_getElem?_getD]
  by_cases h0 : e.paddingSize - po = 0
  · by_cases hl : i + 1 ≥ layout.length
    · have hr : readNext layout ⟨Phase.entry_padding, i, po⟩ w =
          (⟨Phase.eof, i + 1, 0⟩, []) := by
        simp [readNext, he2, h0, hl]
      rw [hr]
      refine ⟨?_, ?_, by simp, fun _ => Or.inr rfl⟩
      · simp only [stateBytes, ← he, h0]
        rw [restBytes_nil _ _ hl]
        simp
      · simp only [WFState]
        omega
    · have hr : readNext layout ⟨Phase.entry_padding, i, po⟩ w =
          (⟨Phase.entry_header, i + 1, 0⟩, []) := by
        simp [readNext, he2, h0, hl]
      rw [hr]
      refine ⟨?_, ?_, by simp, fun _ => Or.inl rfl⟩
      · simp only [stateBytes, ← he, h0]
        rw [restBytes_cons layout (i + 1) (by omega)]
        simp [entryBytes, List.append_assoc]
      · simp only [WFState]
        refine ⟨by omega, by omega⟩
  · set take := min (max 1 w) (e.paddingSize - po) with htake
    have htake1 : 1 ≤ take := by omega
    have htake2 : take ≤ e.paddingSize - po := by omega
    have hrep : List.replicate (e.paddingSize - po) (0 : Nat) =
        List.replicate take 0 ++ List.replicate (e.paddingSize - po - take) 0 := by
      rw [← List.replicate_add]
      congr 1
      omega
    by_cases hcut : po + take ≥ e.paddingSize
    · by_cases hl : i + 1 ≥ layout.length
      · have hr : readNext layout ⟨Phase.entry_padding, i, po⟩ w =
            (⟨Phase.eof, i + 1, 0⟩, List.replicate take 0) := by
          simp [readNext, he2, h0, hl, ← htake, hcut]
        rw [hr]
        refine ⟨?_, ?_, by rw [List.length_replicate]; omega,
          by intro hx; simp at hx; omega⟩
        · simp only [stateBytes, ← he]
          rw [restBytes_nil _ _ hl, hrep]
          have hz : e.paddingSize - po - take = 0 := by omega
          rw [hz]
          simp
        · simp only [WFState]
          omega
      · have hr : readNext layout ⟨Phase.entry_padding, i, po⟩ w =
            (⟨Phase.entry_header, i + 1, 0⟩, List.replicate take 0) := by
          simp [readNext, he2, h0, hl, ← htake, hcut]
        rw [hr]
        refine ⟨?_, ?_, by rw [List.length_replicate]; omega,
          by intro hx; simp at hx; omega⟩
        · simp only [stateBytes, ← he]
          rw [restBytes_cons layout (i + 1) (by omega), hrep]
          have hz : e.paddingSize - po - take = 0 := by omega
          rw [hz]
          simp [entryBytes, List.append_assoc]
        · simp only [WFState]
          refine ⟨by omega, by omega⟩
    · have hr : readNext layout ⟨Phase.entry_padding, i, po⟩ w =
          (⟨Phase.entry_padding, i, po + take⟩, List.replicate take 0) := by
        simp [readNext, he2, h0, ← htake, hcut]
      rw [hr]
      refine ⟨?_, ?_, by rw [List.length_replicate]; omega,
        by intro hx; simp at hx; omega⟩
      · simp only [stateBytes, ← he]
        rw [hrep]
        have hz : e.paddingSize - (po + take) = e.paddingSize - po - take := by omega
        rw [hz, ← List.append_assoc, ← List.replicate_add]
      · simp only [WFState, ← he]
        omega

end EnriVision

namespace EnriVision

theorem readNext_spec (layout : List TarLayoutEntry) (hwf : WFLayout layout)
    (s : ReadState) (hs : WFState layout s)
    (hne : stateBytes layout s ≠ []) (w : Nat) :
    stateBytes layout s =
        (readNext layout s w).2 ++ stateBytes layout (readNext layout s w).1 ∧
      WFState layout (readNext layout s w).1 ∧
      (readNext layout s w).2.length ≤ max 1 w ∧
      ((readNext layout s w).2 = [] →
        emptyBudget (readNext layout s w).1 < emptyBudget s) := by
  obtain ⟨ph, i, po⟩ := s
  cases ph with
  | entry_header =>
    simp only [WFState] at hs
    obtain ⟨h1, h2, h3, h4⟩ := readNext_spec_header layout hwf i po w hs.1 hs.2
    exact ⟨h1, h2, h3, fun hx => absurd hx h4⟩
  | entry_content =>
    simp only [WFState] at hs
    obtain ⟨h1, h2, h3, h4⟩ := readNext_spec_content layout hwf i po w hs.1 hs.2
    refine ⟨h1, h2, h3, fun hx => ?_⟩
    rw [h4 hx]
    simp [emptyBudget]
  | entry_padding =>
    simp only [WFState] at hs
    obtain ⟨h1, h2, h3, h4⟩ := readNext_spec_padding layout hwf i po w hs.1 hs.2
    refine ⟨h1, h2, h3, fun hx => ?_⟩
    rcases h4 hx with hp | hp <;> simp [emptyBudget, hp]
  | eof =>
    simp only [WFState] at hs
    obtain ⟨h1, h2, h3, h4⟩ := readNext_spec_eof layout i po w hs hne
    exact ⟨h1, h2, h3, fun hx => absurd hx h4⟩

theorem readParts_spec (layout : List TarLayoutEntry) (hwf : WFLayout layout) :
    ∀ (s : ReadState) (r e : Nat), WFState layout s →
      r ≤ (stateBytes layout s).length → e + emptyBudget s ≤ 50 →
      (readParts layout s r e).2 = (stateBytes layout s).take r ∧
        stateBytes layout (readParts layout s r e).1 = (stateBytes layout s).drop r ∧
        WFState layout (readParts layout s r e).1 := by
  intro s r e
  induction s, r, e using readParts.induct layout with
  | case1 s e =>
    intro hs _ _
    rw [readParts]
    simp [hs]
  | case2 s r e hr0 res hemp hbreak =>
    -- more than 50 consecutive empty reads: impossible from a reachable state
    intro hs hlen hbudget
    exfalso
    have hres : res = readNext layout s r := rfl
    have hne : stateBytes layout s ≠ [] := by
      intro hx
      rw [hx] at hlen
      simp at hlen
      omega
    obtain ⟨_, _, _, h4⟩ := readNext_spec layout hwf s hs hne r
    have hlt : emptyBudget (readNext layout s r).1 < emptyBudget s := by
      apply h4
      rw [← hres]
      exact List.isEmpty_iff.mp hemp
    omega
  | case3 s r e hr0 res hemp hbreak ih =>
    intro hs hlen hbudget
    have hres : res = readNext layout s r := rfl
    have hne : stateBytes layout s ≠ [] := by
      intro hx
      rw [hx] at hlen
      simp at hlen
      omega
    obtain ⟨h1, h2, h3, h4⟩ := readNext_spec layout hwf s hs hne r
    have hout : (readNext layout s r).2 = [] := by
      rw [← hres]
      exact List.isEmpty_iff.mp hemp
    have hsb : stateBytes layout (readNext layout s r).1 = stateBytes layout s := by
      rw [h1, hout, List.nil_append]
    have hbudget2 : e + 1 + emptyBudget (readNext layout s r).1 ≤ 50 := by
      have := h4 hout
      omega
    have ih2 := ih (hres ▸ h2) (by rw [hres, hsb]; exact hlen) (hres ▸ hbudget2)
    rw [readParts]
    simp only [hr0, hemp, hbreak, if_false, if_true, dite_false, dite_true,
      ite_false, ite_true, dite_eq_ite]
    obtain ⟨g1, g2, g3⟩ := ih2
    rw [hres] at g1 g2 g3
    refine ⟨?_, ?_, ?_⟩
    · rw [g1, hsb]
    · rw [g2, hsb]
    · exact g3
  | case4 s r e hr0 res hemp ih =>
    intro hs hlen hbudget
    have hres : res = readNext layout s r := rfl
    have hne : stateBytes layout s ≠ [] := by
      intro hx
      rw [hx] at hlen
      simp at hlen
      omega
    obtain ⟨h1, h2, h3, h4⟩ := readNext_spec layout hwf s hs hne r
    have houtlen : (readNext layout s r).2.length ≤ r := by
      have hmax : max 1 r = r := by omega
      rw [hmax] at h3
      exact h3
    have hsplit : (stateBytes layout s).length =
        (readNext layout s r).2.length + (stateBytes layout (readNext layout s r).1).length := by
      rw [h1, List.length_append]
    have hlen2 : r - (readNext layout s r).2.length ≤
        (stateBytes layout (readNext layout s r).1).length := by
      omega
    have hbudget2 : 0 + emptyBudget (readNext layout s r).1 ≤ 50 := by
      have := emptyBudget_le_two (readNext layout s r).1
      omega
    have ih2 := ih (hres ▸ h2) (hres ▸ hlen2) (hres ▸ hbudget2)
    rw [readParts]
    simp only [hr0, hemp, if_false, if_true, dite_false, dite_true,
      ite_false, ite_true, dite_eq_ite, Bool.false_eq_true]
    obtain ⟨g1, g2, g3⟩ := ih2
    rw [hres] at g1 g2 g3
    refine ⟨?_, ?_, ?_⟩
    · rw [g1, h1, List.take_append_eq_append_take,
        List.take_of_length_le houtlen]
    · rw [g2, h1, List.drop_append_eq_append_drop,
        List.drop_eq_nil_of_le houtlen, List.nil_append]
    · exact g3

end EnriVision

namespace EnriVision

theorem chunkLoop_spec (layout : List TarLayoutEntry) (hwf : WFLayout layout)
    (total : Nat) :
    ∀ (position : Nat) (s : ReadState) (c : Nat), 1 ≤ c → WFState layout s →
      (stateBytes layout s).length = total - position → position ≤ total →
      (chunkLoop layout total position s c).flatten = stateBytes layout s := by
  intro position s c
  induction position, s, c using chunkLoop.induct layout total with
  | case1 position s c hlt desired res hemp =>
    -- readParts produced nothing although the stream is not exhausted: impossible
    intro hc hs hlen hpos
    exfalso
    have hres : res = readParts layout s (min c (total - position)) 0 := rfl
    have hr1 : min c (total - position) ≤ (stateBytes layout s).length := by omega
    obtain ⟨g1, _, _⟩ := readParts_spec layout hwf s (min c (total - position)) 0 hs hr1
      (by have := emptyBudget_le_two s; omega)
    have hout : res.2 = (stateBytes layout s).take (min c (total - position)) := by
      rw [hres, g1]
    rw [List.isEmpty_iff, hout] at hemp
    have hlen2 : (List.take (min c (total - position)) (stateBytes layout s)).length =
        min c (total - position) := by
      rw [List.length_take]
      omega
    rw [hemp] at hlen2
    simp at hlen2
    omega
  | case2 position s c hlt desired res hemp ih =>
    intro hc hs hlen hpos
    have hres : res = readParts layout s (min c (total - position)) 0 := rfl
    have hr1 : min c (total - position) ≤ (stateBytes layout s).length := by omega
    obtain ⟨g1, g2, g3⟩ := readParts_spec layout hwf s (min c (total - position)) 0 hs hr1
      (by have := emptyBudget_le_two s; omega)
    have hout : res.2 = (stateBytes layout s).take (min c (total - position)) := by
      rw [hres, g1]
    have houtlen : res.2.length = min c (total - position) := by
      rw [hout, List.length_take]
      omega
    have hsb : stateBytes layout res.1 =
        (stateBytes layout s).drop (min c (total - position)) := by
      rw [hres, g2]
    have ih2 := ih hc (hres ▸ g3)
      (by
        rw [hsb, List.length_drop, hlen, houtlen]
        omega)
      (by omega)
    rw [chunkLoop]
    simp only [hlt, hemp, if_true, if_false, dite_true, dite_false, ite_true, ite_false,
      Bool.false_eq_true]
    rw [List.flatten_cons, ih2, hsb, hout, List.take_append_drop]
  | case3 position s c hge =>
    intro hc hs hlen hpos
    rw [chunkLoop]
    simp only [hge, dite_false, ite_false, if_false]
    have hz : (stateBytes layout s).length = 0 := by omega
    rw [List.length_eq_zero] at hz
    rw [hz]
    rfl

end EnriVision

namespace EnriVision

theorem restBytes_length_cons (layout : List TarLayoutEntry) (i : Nat)
    (hi : i < layout.length) :
    (restBytes layout i).length =
      (entryBytes (layout.getD i defaultLayoutEntry)).length +
        (restBytes layout (i + 1)).length := by
  rw [restBytes_cons layout i hi, List.length_append]

theorem seekAux_spec (layout : List TarLayoutEntry) (hwf : WFLayout layout) :
    ∀ (rest : List TarLayoutEntry) (i offset : Nat), layout.drop i = rest →
      offset ≤ (restBytes layout i).length →
      WFState layout (seekAux rest i offset) ∧
        stateBytes layout (seekAux rest i offset) = (restBytes layout i).drop offset := by
  intro rest
  induction rest with
  | nil =>
    intro i offset hdrop hoff
    have hlen : layout.length ≤ i := by
      rw [← List.drop_eq_nil_iff_le, hdrop]
    rw [restBytes_nil layout i hlen] at hoff ⊢
    simp only [List.length_replicate] at hoff
    refine ⟨?_, ?_⟩
    · simp only [seekAux, WFState]
      exact hoff
    · simp only [seekAux, stateBytes]
      rw [List.drop_replicate]
  | cons e rest' ih =>
    intro i offset hdrop hoff
    have hi : i < layout.length := by
      by_contra hcon
      rw [List.drop_eq_nil_of_le (by omega)] at hdrop
      exact List.cons_ne_nil e rest' hdrop.symm
    have he : layout.getD i defaultLayoutEntry = e := by
      rw [List.getD_eq_getElem _ _ hi]
      have h0 : (layout.drop i)[0]? = some e := by
        rw [hdrop]
        simp
      rw [List.getElem?_drop, Nat.add_zero, List.getElem?_eq_getElem hi] at h0
      exact Option.some_injective _ h0
    have hrest : layout.drop (i + 1) = rest' := by
      have hdd : layout.drop (i + 1) = (layout.drop i).drop 1 := by
        rw [List.drop_drop, Nat.add_comm]
      rw [hdd, hdrop]
      simp
    obtain ⟨hh, hb, ht⟩ := WFLayout.entry layout hwf i hi
    rw [he] at hh hb ht
    have hcons : restBytes layout i = entryBytes e ++ restBytes layout (i + 1) := by
      rw [restBytes_cons layout i hi, he]
    have hentry_len : (entryBytes e).length = e.totalSize :=
      entryBytes_length e ⟨hh, hb, ht⟩
    by_cases hofs : offset < e.totalSize
    · simp only [seekAux, hofs, if_true, ite_true]
      by_cases h512 : offset < 512
      · simp only [h512, if_true, ite_true]
        refine ⟨⟨hi, h512⟩, ?_⟩
        simp only [stateBytes, he]
        rw [hcons]
        unfold entryBytes
        simp only [List.drop_append_eq_append_drop, List.length_append, hh, hb,
          List.length_replicate]
        rw [show offset - 512 = 0 from by omega,
          show offset - (512 + e.contentSize) = 0 from by omega,
          show offset - (512 + e.contentSize + e.paddingSize) = 0 from by omega]
        simp [List.append_assoc]
      · by_cases hcs : offset - 512 < e.contentSize
        · simp only [h512, hcs, if_true, ite_true, if_false, ite_false]
          refine ⟨⟨hi, by simp only [he]; omega⟩, ?_⟩
          simp only [stateBytes, he]
          rw [hcons]
          unfold entryBytes
          simp only [List.drop_append_eq_append_drop, List.length_append, hh, hb,
            List.length_replicate]
          rw [show offset - (512 + e.contentSize) = 0 from by omega,
            show offset - (512 + e.contentSize + e.paddingSize) = 0 from by omega]
          simp [List.append_assoc]
          omega
        · simp only [h512, hcs, if_false, ite_false]
          refine ⟨⟨hi, by simp only [he]; omega⟩, ?_⟩
          simp only [stateBytes, he]
          rw [hcons]
          unfold entryBytes
          simp only [List.drop_append_eq_append_drop, List.length_append, hh, hb,
            List.length_replicate]
          rw [List.drop_eq_nil_of_le (by rw [hb]; omega :
              e.source.bytes.length ≤ offset - 512),
            List.drop_replicate,
            show offset - (512 + e.contentSize + e.paddingSize) = 0 from by omega,
            show offset - (512 + e.contentSize) = offset - 512 - e.contentSize from by omega]
          simp [List.append_assoc]
          omega
    · simp only [seekAux, hofs, if_false, ite_false]
      have hoff2 : offset - e.totalSize ≤ (restBytes layout (i + 1)).length := by
        rw [hcons, List.length_append, hentry_len] at hoff
        omega
      obtain ⟨w1, w2⟩ := ih (i + 1) (offset - e.totalSize) hrest hoff2
      refine ⟨w1, ?_⟩
      rw [w2, hcons, List.drop_append_eq_append_drop,
        List.drop_eq_nil_of_le (show (entryBytes e).length ≤ offset from by omega),
        List.nil_append, hentry_len]

end EnriVision

namespace EnriVision

/-! ## Layout construction facts -/

theorem writeString_length (buf : List Nat) (offset len : Nat) (v : String)
    (h : offset + len ≤ buf.length) :
    (writeString buf offset len v).length = buf.length := by
  unfold writeString
  apply writeBytes_length
  have : ((utf8Bytes v).take len).length ≤ len := by
    rw [List.length_take]
    omega
  omega

theorem writeOctal_length (buf : List Nat) (offset len value : Nat)
    (h : offset + len ≤ buf.length) :
    (writeOctal buf offset len value).length = buf.length := by
  unfold writeOctal
  exact writeString_length _ _ _ _ h

theorem writeString_len512 (buf : List Nat) (offset len : Nat) (v : String)
    (hb : offset + len ≤ 512) (h : buf.length = 512) :
    (writeString buf offset len v).length = 512 := by
  rw [writeString_length _ _ _ _ (by omega)]
  exact h

theorem writeOctal_len512 (buf : List Nat) (offset len value : Nat)
    (hb : offset + len ≤ 512) (h : buf.length = 512) :
    (writeOctal buf offset len value).length = 512 := by
  rw [writeOctal_length _ _ _ _ (by omega)]
  exact h

theorem writeBytes_len512 (buf : List Nat) (offset : Nat) (src : List Nat)
    (hb : offset + src.length ≤ 512) (h : buf.length = 512) :
    (writeBytes buf offset src).length = 512 := by
  rw [writeBytes_length _ _ _ (by omega)]
  exact h

theorem writeChecksum_length (buf : List Nat) (checksum : Nat)
    (h : buf.length = 512) :
    (writeChecksum buf checksum).length = 512 := by
  unfold writeChecksum
  apply writeBytes_len512 _ _ _ (by simp)
  apply writeBytes_len512 _ _ _ (by simp)
  exact writeString_len512 _ _ _ _ (by omega) h

theorem buildUstarHeader_length (name : String) (sizeBytes : Nat) (mtime : Int) :
    (buildUstarHeader name sizeBytes mtime).length = 512 := by
  unfold buildUstarHeader
  apply writeChecksum_length
  apply writeString_len512 _ _ _ _ (by omega)
  apply writeString_len512 _ _ _ _ (by omega)
  apply writeBytes_len512 _ _ _ (by simp)
  apply writeBytes_len512 _ _ _ (by simp)
  apply writeOctal_len512 _ _ _ _ (by omega)
  apply writeOctal_len512 _ _ _ _ (by omega)
  apply writeOctal_len512 _ _ _ _ (by omega)
  apply writeOctal_len512 _ _ _ _ (by omega)
  apply writeOctal_len512 _ _ _ _ (by omega)
  apply writeString_len512 _ _ _ _ (by omega)
  exact List.length_replicate 512 0

theorem restBytes_length (layout : List TarLayoutEntry) (hwf : WFLayout layout)
    (i : Nat) :
    (restBytes layout i).length =
      ((layout.drop i).map TarLayoutEntry.totalSize).sum + 1024 := by
  unfold restBytes
  rw [List.length_append, List.length_replicate, List.length_flatten]
  congr 2
  rw [List.map_map]
  apply List.map_congr_left
  intro e he
  have hmem : e ∈ layout := List.mem_of_mem_drop he
  exact entryBytes_length e (hwf e hmem)

theorem buildLayout_ok (entries : List TarEntry) :
    ∀ (cursor : Nat) (layout : List TarLayoutEntry) (fin : Nat),
      buildLayout entries cursor = .ok (layout, fin) →
      (∀ e ∈ entries, e.source.wellSized) →
      WFLayout layout ∧
        layout.map TarLayoutEntry.totalSize =
          entries.map (fun e => 512 + e.source.size + computePaddingSize e.source.size) ∧
        fin = cursor + (layout.map TarLayoutEntry.totalSize).sum ∧
        ∀ e ∈ entries, isSafeTarName e.name = true := by
  induction entries with
  | nil =>
    intro cursor layout fin hok _
    unfold buildLayout at hok
    injection hok with hpair
    injection hpair with h1 h2
    subst h1
    subst h2
    exact ⟨fun e he => absurd he (List.not_mem_nil e), by simp, by simp,
      fun e he => absurd he (List.not_mem_nil e)⟩
  | cons entry rest ih =>
    intro cursor layout fin hok hws
    unfold buildLayout at hok
    by_cases hsafe : isSafeTarName entry.name
    · rw [if_pos hsafe] at hok
      dsimp only at hok
      split at hok
      case _ layouts finalCursor hrec =>
        injection hok with hpair
        injection hpair with h1 h2
        subst h2
        obtain ⟨w1, w2, w3, w4⟩ := ih _ _ _ hrec (fun e he => hws e (by simp [he]))
        subst h1
        refine ⟨?_, ?_, ?_, ?_⟩
        · intro e he
          rcases List.mem_cons.mp he with rfl | hmem
          · refine ⟨buildUstarHeader_length _ _ _, ?_, rfl⟩
            have := hws entry (by simp)
            cases hsrc : entry.source with
            | buffer b => simp [TarEntrySource.bytes, TarEntrySource.size]
            | file p sz c =>
              rw [hsrc] at this
              simpa [TarEntrySource.bytes, TarEntrySource.size] using this
          · exact w1 e hmem
        · simp [w2]
        · simp only [List.map_cons, List.sum_cons]
          omega
        · intro e he
          rcases List.mem_cons.mp he with rfl | hmem
          · exact hsafe
          · exact w4 e hmem
      case _ err hrec =>
        exact absurd hok (by simp)
    · rw [if_neg hsafe] at hok
      cases hok

theorem foldl_size_add (l : List TarEntry) (a : Nat) :
    l.foldl
        (fun total entry =>
          total + 512 + entry.source.size + computePaddingSize entry.source.size) a =
      a + (l.map (fun e => 512 + e.source.size + computePaddingSize e.source.size)).sum := by
  induction l generalizing a with
  | nil => simp
  | cons e t iht =>
    simp only [List.foldl_cons, List.map_cons, List.sum_cons]
    rw [iht]
    ring

theorem computeTarSizeBytes_eq_sum (entries : List TarEntry) :
    computeTarSizeBytes entries =
      (entries.map
        (fun e => 512 + e.source.size + computePaddingSize e.source.size)).sum + 1024 := by
  unfold computeTarSizeBytes
  rw [foldl_size_add]
  omega

/-- Facts available whenever `new TarStream(entries)` succeeds on
well-sized entries. -/
theorem mk?_ok_facts (entries : List TarEntry) (t : TarStreamModel)
    (hmk : TarStream.mk? entries = .ok t)
    (hws : ∀ e ∈ entries, e.source.wellSized) :
    WFLayout t.layout ∧
      (archiveBytes t.layout).length = t.totalSizeBytes ∧
      t.totalSizeBytes = computeTarSizeBytes entries := by
  unfold TarStream.mk? at hmk
  revert hmk
  match hb : buildLayout entries 0 with
  | .error e => intro hmk; cases hmk
  | .ok (layout, cursor) =>
    intro hmk
    injection hmk with ht
    obtain ⟨w1, w2, w3, _⟩ := buildLayout_ok entries 0 layout cursor hb hws
    subst ht
    refine ⟨w1, ?_, ?_⟩
    · unfold archiveBytes
      rw [restBytes_length _ w1 0]
      simp only [List.drop_zero]
      omega
    · rw [computeTarSizeBytes_eq_sum, ← w2]
      simp only
      omega

/-- Key streaming theorem: resuming at `o` produces exactly the suffix of
the archive's bytes from `o` on. -/
theorem iterateChunks_flatten (t : TarStreamModel) (hwf : WFLayout t.layout)
    (htot : (archiveBytes t.layout).length = t.totalSizeBytes)
    (o : Nat) (c : Int) (ho : o ≤ t.totalSizeBytes) :
    (TarStream.iterateChunks t (o : Int) c).flatten = (archiveBytes t.layout).drop o := by
  unfold TarStream.iterateChunks
  have h1 : (max 0 (o : Int)).toNat = o := by simp
  by_cases hge : o ≥ t.totalSizeBytes
  · rw [h1]
    simp only [hge, if_pos, ite_true]
    rw [List.drop_eq_nil_of_le (by omega)]
    rfl
  · rw [h1]
    simp only [hge, if_neg, ite_false]
    have hc1 : 1 ≤ (max 1 c).toNat := by
      have : (1 : Int) ≤ max 1 c := le_max_left _ _
      omega
    obtain ⟨w1, w2⟩ := seekAux_spec t.layout hwf t.layout 0 o (by simp)
      (by
        unfold archiveBytes at htot
        omega)
    unfold TarStream.seek
    unfold archiveBytes
    rw [← w2]
    apply chunkLoop_spec t.layout hwf t.totalSizeBytes o (seekAux t.layout 0 o)
      ((max 1 c).toNat) hc1 w1
    · rw [w2, List.length_drop]
      unfold archiveBytes at htot
      omega
    · omega

end EnriVision

namespace EnriVision

/-! ## Sample data for witnesses -/

deriving instance DecidableEq for Except

/-- Concrete well-formed entry list used by the witnesses. -/
def sampleEntries : List TarEntry :=
  [{ name := "hello.txt", source := .buffer [104, 105], mtimeSeconds := 42 },
   { name := "data.bin", source := .file "/tmp/data.bin" 3 [7, 8, 9], mtimeSeconds := 7 }]

/-- The stream the constructor builds for `sampleEntries`. -/
def sampleStream : TarStreamModel :=
  match TarStream.mk? sampleEntries with
  | .ok t => t
  | .error _ => { layout := [], totalSizeBytes := 0 }

end EnriVision

namespace EnriVision

/-- C1: resuming at `o` yields exactly the suffix from `o` of the bytes
produced from offset `0`: no byte is re-produced, skipped or altered. -/
theorem claim_C1_resume_suffix (entries : List TarEntry) (t : TarStreamModel)
    (hmk : TarStream.mk? entries = .ok t)
    (hws : ∀ e ∈ entries, e.source.wellSized)
    (o : Nat) (c c' : Int) (ho : o ≤ t.totalSizeBytes) :
    (TarStream.iterateChunks t (o : Int) c).flatten =
      ((TarStream.iterateChunks t 0 c').flatten).drop o := by
  obtain ⟨hwf, htot, _⟩ := mk?_ok_facts entries t hmk hws
  rw [iterateChunks_flatten t hwf htot o c ho]
  have h0 : TarStream.iterateChunks t 0 c' =
      TarStream.iterateChunks t ((0 : Nat) : Int) c' := by norm_num
  rw [h0, iterateChunks_flatten t hwf htot 0 c' (by omega), List.drop_zero]

theorem claim_C1_resume_suffix_witness :
    TarStream.mk? sampleEntries = .ok sampleStream ∧
      700 ≤ sampleStream.totalSizeBytes ∧
      (TarStream.iterateChunks sampleStream (700 : Nat) 77).flatten =
        ((TarStream.iterateChunks sampleStream 0 512).flatten).drop 700 :=
  ⟨by decide, by decide,
    claim_C1_resume_suffix sampleEntries sampleStream (by decide) (by decide)
      700 77 512 (by decide)⟩

/-- C2: the size-only computation, the planner's total, and the length of
the fully materialised stream agree exactly; the size-only computation
never looks at file content (replacing every file's bytes changes
nothing). -/
theorem claim_C2_size_agreement (entries : List TarEntry) (t : TarStreamModel)
    (hmk : TarStream.mk? entries = .ok t)
    (hws : ∀ e ∈ entries, e.source.wellSized) (c : Int) :
    computeTarSizeBytes entries = TarStream.getSizeBytes t ∧
      computeTarSizeBytes entries = ((TarStream.iterateChunks t 0 c).flatten).length ∧
      computeTarSizeBytes entries =
        computeTarSizeBytes (entries.map (fun e =>
          { e with source := match e.source with
              | .buffer b => .buffer b
              | .file p sz _ => .file p sz [] })) := by
  obtain ⟨hwf, htot, hsz⟩ := mk?_ok_facts entries t hmk hws
  refine ⟨hsz.symm, ?_, ?_⟩
  · have h0 : TarStream.iterateChunks t 0 c =
        TarStream.iterateChunks t ((0 : Nat) : Int) c := by norm_num
    rw [h0, iterateChunks_flatten t hwf htot 0 c (by omega), List.drop_zero, htot]
    exact hsz.symm
  · rw [computeTarSizeBytes_eq_sum, computeTarSizeBytes_eq_sum, List.map_map]
    congr 2
    apply List.map_congr_left
    intro e _
    obtain ⟨nm, src, mt⟩ := e
    cases src <;> rfl

theorem claim_C2_size_agreement_witness :
    TarStream.mk? sampleEntries = .ok sampleStream ∧
      computeTarSizeBytes sampleEntries = TarStream.getSizeBytes sampleStream ∧
      computeTarSizeBytes sampleEntries =
        ((TarStream.iterateChunks sampleStream 0 500).flatten).length :=
  ⟨by decide,
    (claim_C2_size_agreement sampleEntries sampleStream (by decide) (by decide) 500).1,
    (claim_C2_size_agreement sampleEntries sampleStream (by decide) (by decide) 500).2.1⟩

theorem entry_total_mod (s : Nat) : (512 + s + computePaddingSize s) % 512 = 0 := by
  unfold computePaddingSize
  have h1 : s % 512 < 512 := Nat.mod_lt _ (by omega)
  by_cases h : s % 512 = 0 <;> simp [h] <;> omega

theorem sum_mod_512 (l : List Nat) (h : ∀ x ∈ l, x % 512 = 0) : l.sum % 512 = 0 := by
  induction l with
  | nil => simp
  | cons x t ih =>
    have hx := h x (by simp)
    have ht := ih (fun y hy => h y (by simp [hy]))
    rw [List.sum_cons]
    omega

/-- C7: the archive length is a multiple of 512, equals the per-entry
totals plus the 1024-byte end marker, and the produced stream ends in
1024 zero bytes. -/
theorem claim_C7_end_marker (entries : List TarEntry) (t : TarStreamModel)
    (hmk : TarStream.mk? entries = .ok t)
    (hws : ∀ e ∈ entries, e.source.wellSized) (c : Int) :
    t.totalSizeBytes % 512 = 0 ∧
      t.totalSizeBytes =
        (entries.map
          (fun e => 512 + e.source.size + computePaddingSize e.source.size)).sum + 1024 ∧
      ((TarStream.iterateChunks t 0 c).flatten).drop (t.totalSizeBytes - 1024) =
        List.replicate 1024 0 := by
  obtain ⟨hwf, htot, hsz⟩ := mk?_ok_facts entries t hmk hws
  have hform : t.totalSizeBytes =
      (entries.map
        (fun e => 512 + e.source.size + computePaddingSize e.source.size)).sum + 1024 := by
    rw [hsz, computeTarSizeBytes_eq_sum]
  refine ⟨?_, hform, ?_⟩
  · rw [hform]
    have : ((entries.map
        (fun e => 512 + e.source.size + computePaddingSize e.source.size)).sum) % 512 = 0 := by
      apply sum_mod_512
      intro x hx
      rcases List.mem_map.mp hx with ⟨e, _, rfl⟩
      exact entry_total_mod _
    omega
  · have h0 : TarStream.iterateChunks t 0 c =
        TarStream.iterateChunks t ((0 : Nat) : Int) c := by norm_num
    rw [h0, iterateChunks_flatten t hwf htot 0 c (by omega), List.drop_zero]
    unfold archiveBytes restBytes
    simp only [List.drop_zero]
    have hflat : ((t.layout.map entryBytes).flatten).length = t.totalSizeBytes - 1024 := by
      have := restBytes_length t.layout hwf 0
      unfold restBytes at this
      simp only [List.drop_zero] at this
      have h2 : (archiveBytes t.layout).length = t.totalSizeBytes := htot
      unfold archiveBytes restBytes at h2
      simp only [List.drop_zero] at h2
      rw [List.length_append, List.length_replicate] at h2
      omega
    rw [← hflat, List.drop_left]

theorem claim_C7_end_marker_witness :
    TarStream.mk? sampleEntries = .ok sampleStream ∧
      sampleStream.totalSizeBytes % 512 = 0 ∧
      ((TarStream.iterateChunks sampleStream 0 100).flatten).drop
          (sampleStream.totalSizeBytes - 1024) =
        List.replicate 1024 0 :=
  ⟨by decide,
    (claim_C7_end_marker sampleEntries sampleStream (by decide) (by decide) 100).1,
    (claim_C7_end_marker sampleEntries sampleStream (by decide) (by decide) 100).2.2⟩

end EnriVision

namespace EnriVision

/-- C9: `iterateChunks` is total and normalizes its arguments: negative
starts clamp to 0, non-positive chunk sizes clamp to 1, and a start at or
past the total yields no chunks.  (Being a Lean function, the model is
total by construction; fractional JS arguments are represented by their
floor, which the code takes immediately.) -/
theorem claim_C9_iterateChunks_total (t : TarStreamModel) (s c : Int) :
    TarStream.iterateChunks t s c = TarStream.iterateChunks t (max 0 s) (max 1 c) ∧
      (c ≤ 0 → TarStream.iterateChunks t s c = TarStream.iterateChunks t s 1) ∧
      (s ≤ 0 → TarStream.iterateChunks t s c = TarStream.iterateChunks t 0 c) ∧
      ((max 0 s).toNat ≥ t.totalSizeBytes → TarStream.iterateChunks t s c = []) := by
  refine ⟨?_, ?_, ?_, ?_⟩
  · unfold TarStream.iterateChunks
    rw [← max_assoc, max_self, ← max_assoc, max_self]
  · intro hc
    unfold TarStream.iterateChunks
    rw [show max 1 c = max 1 1 from by omega]
  · intro hs
    unfold TarStream.iterateChunks
    rw [show max 0 s = max 0 0 from by omega]
  · intro hge
    unfold TarStream.iterateChunks
    simp only [hge, if_pos, ite_true]

theorem claim_C9_iterateChunks_total_witness :
    TarStream.iterateChunks sampleStream (-5) 0 = TarStream.iterateChunks sampleStream 0 1 ∧
      (max 0 (5000 : Int)).toNat ≥ sampleStream.totalSizeBytes ∧
      TarStream.iterateChunks sampleStream 5000 7 = [] := by
  refine ⟨?_, by decide, ?_⟩
  · have h := (claim_C9_iterateChunks_total sampleStream (-5) 0).1
    rw [h]
    norm_num
  · exact (claim_C9_iterateChunks_total sampleStream 5000 7).2.2.2 (by decide)

/-- Entry with a name the constructor rejects. -/
def badNameEntry : TarEntry :=
  { name := "bad/name", source := .buffer [], mtimeSeconds := 0 }

/-- C10: the size-only computation performs no validation and never
fails: it returns the arithmetic total for every entry list, including
one whose name makes `TarStream` construction throw. -/
theorem claim_C10_size_no_validation :
    (∀ entries : List TarEntry, computeTarSizeBytes entries =
      (entries.map
        (fun e => 512 + e.source.size + computePaddingSize e.source.size)).sum + 1024) ∧
      TarStream.mk? [badNameEntry] = .error "Invalid tar entry name: bad/name" ∧
      computeTarSizeBytes [badNameEntry] = 1536 :=
  ⟨computeTarSizeBytes_eq_sum, by decide, by decide⟩

/-- The name invariant exactly as claim C4 words it, judged on the name
as given: non-empty, at most 100 UTF-8 bytes, no path separators, and
only characters of the safe set. -/
def specSafeName (name : String) : Bool :=
  (!name.data.isEmpty) && decide ((utf8Bytes name).length ≤ 100) &&
    (!name.data.contains '/') && (!name.data.contains '\\') &&
    name.data.all isSafeChar

/-- Entry whose name carries surrounding spaces. -/
def spacedEntry : TarEntry :=
  { name := " a ", source := .buffer [], mtimeSeconds := 0 }

/-- The stream built for `spacedEntry`. -/
def spacedStream : TarStreamModel :=
  match TarStream.mk? [spacedEntry] with
  | .ok t => t
  | .error _ => { layout := [], totalSizeBytes := 0 }

/-- C4 counterexample: the name `" a "` contains characters outside the
safe set (spaces), yet construction succeeds, because `isSafeTarName`
validates the trimmed name.  So construction failing is not equivalent
to the claim's name invariant being violated. -/
theorem claim_C4_counterexample :
    TarStream.mk? [spacedEntry] = .ok spacedStream ∧
      specSafeName spacedEntry.name = false :=
  ⟨by decide, by decide⟩

theorem buildLayout_error_iff (entries : List TarEntry) :
    ∀ cursor : Nat,
      ((∃ msg, buildLayout entries cursor = .error msg) ↔
        ∃ e ∈ entries, isSafeTarName e.name = false) := by
  induction entries with
  | nil =>
    intro cursor
    constructor
    · rintro ⟨msg, hmsg⟩
      unfold buildLayout at hmsg
      cases hmsg
    · rintro ⟨e, he, _⟩
      cases he
  | cons entry rest ih =>
    intro cursor
    unfold buildLayout
    by_cases hsafe : isSafeTarName entry.name
    · rw [if_pos hsafe]
      dsimp only
      constructor
      · rintro ⟨msg, hmsg⟩
        split at hmsg
        · cases hmsg
        · rename_i err hrec
          obtain ⟨e, he, hbad⟩ := (ih _).mp ⟨err, hrec⟩
          exact ⟨e, by simp [he], hbad⟩
      · rintro ⟨e, he, hbad⟩
        rcases List.mem_cons.mp he with rfl | hmem
        · rw [hsafe] at hbad
          cases hbad
        · obtain ⟨msg, hmsg⟩ := (ih _).mpr ⟨e, hmem, hbad⟩
          rw [hmsg]
          exact ⟨msg, rfl⟩
    · rw [if_neg hsafe]
      constructor
      · intro _
        exact ⟨entry, by simp, by simpa using hsafe⟩
      · intro _
        exact ⟨_, rfl⟩

theorem isSafeTarName_spec (name : String) (h : isSafeTarName name = true) :
    (jsTrim name).data ≠ [] ∧ (utf8Bytes (jsTrim name)).length ≤ 100 ∧
      (jsTrim name).data.all isSafeChar = true := by
  unfold isSafeTarName at h
  dsimp only at h
  split at h
  · cases h
  · split at h
    · cases h
    · split at h
      · cases h
      · rename_i h1 h2 h3
        simp only [Bool.and_eq_true, decide_eq_true_eq] at h
        obtain ⟨⟨hb0, hb100⟩, ⟨hlen1, hlen100⟩, hall⟩ := h
        refine ⟨?_, hb100, hall⟩
        intro hx
        exact h1 (by simp [hx])

/-- C4 amended: construction fails exactly when some entry's *trimmed*
name violates the invariant (`isSafeTarName`), and every accepted
entry's trimmed name is non-empty, at most 100 UTF-8 bytes, and within
the safe character set. -/
theorem claim_C4_name_validation (entries : List TarEntry) :
    ((∃ msg, TarStream.mk? entries = .error msg) ↔
      ∃ e ∈ entries, isSafeTarName e.name = false) ∧
      (∀ t, TarStream.mk? entries = .ok t →
        ∀ e ∈ entries, isSafeTarName e.name = true ∧
          (jsTrim e.name).data ≠ [] ∧ (utf8Bytes (jsTrim e.name)).length ≤ 100 ∧
          (jsTrim e.name).data.all isSafeChar = true) := by
  constructor
  · rw [← buildLayout_error_iff entries 0]
    unfold TarStream.mk?
    constructor
    · rintro ⟨msg, hmsg⟩
      revert hmsg
      match hb : buildLayout entries 0 with
      | .ok (layout, cursor) => intro hmsg; cases hmsg
      | .error err => intro _; exact ⟨err, rfl⟩
    · rintro ⟨msg, hmsg⟩
      rw [hmsg]
      exact ⟨msg, rfl⟩
  · intro t hmk e he
    have hok : ¬ ∃ e ∈ entries, isSafeTarName e.name = false := by
      rw [← buildLayout_error_iff entries 0]
      rintro ⟨msg, hmsg⟩
      unfold TarStream.mk? at hmk
      rw [hmsg] at hmk
      cases hmk
    have hsafe : isSafeTarName e.name = true := by
      by_contra hx
      exact hok ⟨e, he, by simpa using hx⟩
    exact ⟨hsafe, isSafeTarName_spec e.name hsafe⟩

theorem claim_C4_name_validation_witness :
    TarStream.mk? sampleEntries = .ok sampleStream ∧
      "hello.txt" ∈ sampleEntries.map TarEntry.name ∧
      isSafeTarName "hello.txt" = true := by
  refine ⟨by decide, by decide, ?_⟩
  have hfst : (⟨"hello.txt", .buffer [104, 105], 42⟩ : TarEntry) ∈ sampleEntries := by
    decide
  exact (((claim_C4_name_validation sampleEntries).2 sampleStream (by decide)) _ hfst).1

end EnriVision

namespace EnriVision

/-! ## Header field extraction -/

theorem padStart_length (len : Nat) (c : Char) (s : List Char) :
    (padStart len c s).length = max len s.length := by
  simp [padStart]
  omega

theorem takeWhile_all (l : List Nat) (p : Nat → Bool) (h : ∀ b ∈ l, p b = true) :
    l.takeWhile p = l := by
  induction l with
  | nil => rfl
  | cons a t ih =>
    rw [List.takeWhile_cons, h a (by simp)]
    simp only [ite_true, if_true]
    rw [ih (fun b hb => h b (by simp [hb]))]

theorem natToOctal_lt (n k : Nat) (hk : 1 ≤ k) (h : (natToOctal n).length ≤ k) :
    n < 8 ^ k := by
  induction k generalizing n with
  | zero => omega
  | succ k ih =>
    rw [natToOctal_eq] at h
    by_cases hn : n < 8
    · have : (8:Nat) ≤ 8 ^ (k + 1) := by
        calc (8:Nat) = 8 ^ 1 := by norm_num
        _ ≤ 8 ^ (k + 1) := Nat.pow_le_pow_right (by omega) (by omega)
      omega
    · simp only [hn, if_false, ite_false, List.length_append, List.length_cons,
        List.length_nil] at h
      have hk1 : 1 ≤ k := by
        by_contra hk0
        have hkz : k = 0 := by omega
        subst hkz
        have := natToOctal_length_pos (n / 8)
        omega
      have hdiv : n / 8 < 8 ^ k := ih (n / 8) hk1 (by omega)
      have : n < 8 ^ k * 8 := by
        have h8 : n = 8 * (n / 8) + n % 8 := (Nat.div_add_mod n 8).symm
        have hm : n % 8 < 8 := Nat.mod_lt _ (by omega)
        omega
      rw [pow_succ]
      exact this

theorem slice_add (l : List Nat) (o m n : Nat) :
    slice l o (m + n) = slice l o m ++ slice l (o + m) n := by
  unfold slice
  rw [List.take_add, List.drop_drop]

theorem writeString_all_lt (buf : List Nat) (offset len : Nat) (v : String)
    (h : ∀ b ∈ buf, b < 256) :
    ∀ b ∈ writeString buf offset len v, b < 256 := by
  unfold writeString
  apply writeBytes_all_lt _ _ _ _ h
  intro b hb
  exact utf8Bytes_lt_256 v b (List.mem_of_mem_take hb)

theorem writeOctal_all_lt (buf : List Nat) (offset len value : Nat)
    (h : ∀ b ∈ buf, b < 256) :
    ∀ b ∈ writeOctal buf offset len value, b < 256 := by
  unfold writeOctal
  exact writeString_all_lt _ _ _ _ h

theorem buildUstarHeader_all_lt (name : String) (sizeBytes : Nat) (mtime : Int) :
    ∀ b ∈ buildUstarHeader name sizeBytes mtime, b < 256 := by
  unfold buildUstarHeader writeChecksum
  apply writeBytes_all_lt _ _ _ _ _ (by intro b hb; simp at hb; omega)
  apply writeBytes_all_lt _ _ _ _ _ (by intro b hb; simp at hb; omega)
  apply writeString_all_lt
  apply writeString_all_lt
  apply writeString_all_lt
  apply writeBytes_all_lt _ _ _ _ _ (by intro b hb; simp at hb; omega)
  apply writeBytes_all_lt _ _ _ _ _ (by
    intro b hb
    rw [List.eq_of_mem_replicate hb]
    omega)
  apply writeOctal_all_lt
  apply writeOctal_all_lt
  apply writeOctal_all_lt
  apply writeOctal_all_lt
  apply writeOctal_all_lt
  apply writeString_all_lt
  intro b hb
  rw [List.eq_of_mem_replicate hb]
  omega

/-- The characters `toString(8)` plus zero-padding produce are ASCII. -/
theorem padOct_ascii (k : Nat) (value : Nat) :
    ∀ c ∈ padStart k '0' (natToOctal value), c.toNat < 128 := by
  intro c hc
  unfold padStart at hc
  rcases List.mem_append.mp hc with h | h
  · rw [List.eq_of_mem_replicate h]
    decide
  · exact natToOctal_ascii value c h

theorem padOct_digit_bytes (k : Nat) (value : Nat) :
    ∀ c ∈ padStart k '0' (natToOctal value), 48 ≤ c.toNat ∧ c.toNat ≤ 55 := by
  intro c hc
  unfold padStart at hc
  rcases List.mem_append.mp hc with h | h
  · rw [List.eq_of_mem_replicate h]
    decide
  · exact natToOctal_digit_bytes value c h

/-- The bytes `writeOctal` leaves in its field. -/
theorem writeOctal_field (buf : List Nat) (offset len value : Nat)
    (hlen : offset + len ≤ buf.length) (hl1 : 1 ≤ len) :
    slice (writeOctal buf offset len value) offset len =
      ((padStart (len - 1) '0' (natToOctal value)).map Char.toNat ++ [0]).take len := by
  unfold writeOctal writeString
  dsimp only
  have hascii : utf8Bytes (String.mk (padStart (len - 1) '0' (natToOctal value) ++ ['\x00'])) =
      (padStart (len - 1) '0' (natToOctal value)).map Char.toNat ++ [0] := by
    rw [utf8Bytes_ascii]
    · simp
    · intro c hc
      rcases List.mem_append.mp hc with h | h
      · exact padOct_ascii _ _ c h
      · simp at h
        rw [h]
        decide
  rw [hascii]
  have hsrclen : (((padStart (len - 1) '0' (natToOctal value)).map Char.toNat ++ [0]).take
      len).length = len := by
    rw [List.length_take, List.length_append, List.length_map, padStart_length]
    simp
    omega
  have := slice_writeBytes_self buf offset
    (((padStart (len - 1) '0' (natToOctal value)).map Char.toNat ++ [0]).take len)
    (by omega)
  rw [hsrclen] at this
  exact this

end EnriVision

namespace EnriVision

theorem slice_writeString_right (buf : List Nat) (offset len : Nat) (v : String)
    (o n : Nat) (h : offset + len ≤ buf.length) (hd : o + n ≤ offset) :
    slice (writeString buf offset len v) o n = slice buf o n := by
  unfold writeString
  apply slice_writeBytes_right _ _ _ _ _ _ hd
  have : ((utf8Bytes v).take len).length ≤ len := by
    rw [List.length_take]
    omega
  omega

theorem slice_writeOctal_right (buf : List Nat) (offset len value : Nat)
    (o n : Nat) (h : offset + len ≤ buf.length) (hd : o + n ≤ offset) :
    slice (writeOctal buf offset len value) o n = slice buf o n := by
  unfold writeOctal
  exact slice_writeString_right _ _ _ _ _ _ h hd

theorem writeChecksum_slice_low (buf : List Nat) (ck : Nat) (o n : Nat)
    (hlen : buf.length = 512) (hd : o + n ≤ 148) :
    slice (writeChecksum buf ck) o n = slice buf o n := by
  unfold writeChecksum
  dsimp only
  have ls1 : (writeString buf 148 6
      (String.mk (padStart 6 '0' (natToOctal ck)))).length = 512 :=
    writeString_len512 _ _ _ _ (by omega) hlen
  have ls2 : (writeBytes (writeString buf 148 6
      (String.mk (padStart 6 '0' (natToOctal ck)))) 154 [0]).length = 512 :=
    writeBytes_len512 _ _ _ (by simp) ls1
  rw [slice_writeBytes_right _ _ _ (by simp [ls2]) _ _ (by omega),
    slice_writeBytes_right _ _ _ (by simp [ls1]) _ _ (by omega),
    slice_writeString_right _ _ _ _ _ _ (by omega) (by omega)]

/-- The structure of the built header: the 12-byte size field at 124,
and the pre-checksum buffer the checksum step sees. -/
theorem buildUstarHeader_fields (name : String) (sizeBytes : Nat) (mtime : Int) :
    slice (buildUstarHeader name sizeBytes mtime) 124 12 =
        ((padStart 11 '0' (natToOctal sizeBytes)).map Char.toNat ++ [0]).take 12 ∧
      ∃ buf : List Nat, buf.length = 512 ∧ (∀ b ∈ buf, b < 256) ∧
        slice buf 148 8 = List.replicate 8 32 ∧
        buildUstarHeader name sizeBytes mtime = writeChecksum buf buf.sum := by
  unfold buildUstarHeader
  dsimp only
  set b0 := List.replicate 512 (0 : Nat) with hb0
  set b1 := writeString b0 0 100 name with hb1
  set b2 := writeOctal b1 100 8 420 with hb2
  set b3 := writeOctal b2 108 8 0 with hb3
  set b4 := writeOctal b3 116 8 0 with hb4
  set b5 := writeOctal b4 124 12 sizeBytes with hb5
  set b6 := writeOctal b5 136 12 (max 0 mtime).toNat with hb6
  set b7 := writeBytes b6 148 (List.replicate 8 32) with hb7
  set b8 := writeBytes b7 156 [48] with hb8
  set b9 := writeString b8 257 6 (String.mk ['u', 's', 't', 'a', 'r', '\x00']) with hb9
  set b10 := writeString b9 263 2 "00" with hb10
  have l0 : b0.length = 512 := by simp [hb0]
  have l1 : b1.length = 512 := writeString_len512 _ _ _ _ (by omega) l0
  have l2 : b2.length = 512 := writeOctal_len512 _ _ _ _ (by omega) l1
  have l3 : b3.length = 512 := writeOctal_len512 _ _ _ _ (by omega) l2
  have l4 : b4.length = 512 := writeOctal_len512 _ _ _ _ (by omega) l3
  have l5 : b5.length = 512 := writeOctal_len512 _ _ _ _ (by omega) l4
  have l6 : b6.length = 512 := writeOctal_len512 _ _ _ _ (by omega) l5
  have l7 : b7.length = 512 := writeBytes_len512 _ _ _ (by simp) l6
  have l8 : b8.length = 512 := writeBytes_len512 _ _ _ (by simp) l7
  have l9 : b9.length = 512 := writeString_len512 _ _ _ _ (by omega) l8
  have l10 : b10.length = 512 := writeString_len512 _ _ _ _ (by omega) l9
  constructor
  · rw [writeChecksum_slice_low _ _ _ _ l10 (by omega)]
    rw [hb10, slice_writeString_right _ _ _ _ _ _ (by omega) (by omega)]
    rw [hb9, slice_writeString_right _ _ _ _ _ _ (by omega) (by omega)]
    rw [hb8, slice_writeBytes_right _ _ _ (by simp [l7]) _ _ (by omega)]
    rw [hb7, slice_writeBytes_right _ _ _ (by simp [l6]) _ _ (by omega)]
    rw [hb6, slice_writeOctal_right _ _ _ _ _ _ (by omega) (by omega)]
    rw [hb5, writeOctal_field _ _ _ _ (by omega) (by omega)]
  · refine ⟨b10, l10, ?_, ?_, rfl⟩
    · rw [hb10]
      apply writeString_all_lt
      rw [hb9]
      apply writeString_all_lt
      rw [hb8]
      apply writeBytes_all_lt _ _ _ _ _ (by intro b hb; simp at hb; omega)
      rw [hb7]
      apply writeBytes_all_lt _ _ _ _ _ (by
        intro b hb
        rw [List.eq_of_mem_replicate hb]
        omega)
      rw [hb6]
      apply writeOctal_all_lt
      rw [hb5]
      apply writeOctal_all_lt
      rw [hb4]
      apply writeOctal_all_lt
      rw [hb3]
      apply writeOctal_all_lt
      rw [hb2]
      apply writeOctal_all_lt
      rw [hb1]
      apply writeString_all_lt
      intro b hb
      rw [hb0] at hb
      rw [List.eq_of_mem_replicate hb]
      omega
    · rw [hb10, slice_writeString_right _ _ _ _ _ _ (by omega) (by omega)]
      rw [hb9, slice_writeString_right _ _ _ _ _ _ (by omega) (by omega)]
      rw [hb8, slice_writeBytes_right _ _ _ (by simp [l7]) _ _ (by omega)]
      rw [hb7]
      have := slice_writeBytes_self b6 148 (List.replicate 8 32) (by simp [l6])
      simpa using this

end EnriVision

namespace EnriVision

theorem padOct_isOctByte (k value : Nat) :
    ∀ b ∈ (padStart k '0' (natToOctal value)).map Char.toNat, isOctByte b = true := by
  intro b hb
  rcases List.mem_map.mp hb with ⟨c, hc, rfl⟩
  have := padOct_digit_bytes k value c hc
  unfold isOctByte
  simp
  omega

theorem parseOctalDigits_padStart (k value : Nat) :
    parseOctalDigits ((padStart k '0' (natToOctal value)).map Char.toNat) = value := by
  unfold padStart
  rw [List.map_append, List.map_replicate]
  have h48 : '0'.toNat = 48 := by decide
  rw [h48, parseOctalDigits_pad]
  exact parseOctalDigits_natToOctal value

/-- Parsing the rendered 12-byte size field recovers the value whenever
it has at most 12 octal digits. -/
theorem parse_size_field (sizeBytes : Nat) (h : sizeBytes < 8 ^ 12) :
    parseOctal (((padStart 11 '0' (natToOctal sizeBytes)).map Char.toNat ++ [0]).take 12) =
      sizeBytes := by
  by_cases h11 : sizeBytes < 8 ^ 11
  · have hd : (natToOctal sizeBytes).length ≤ 11 := natToOctal_length_le _ 11 (by omega) h11
    have hlenp : (padStart 11 '0' (natToOctal sizeBytes)).length = 11 := by
      rw [padStart_length]
      omega
    rw [List.take_of_length_le (by simp [hlenp])]
    unfold parseOctal
    rw [takeWhile_append_stop _ 0 [] (padOct_isOctByte 11 sizeBytes) (by decide)]
    exact parseOctalDigits_padStart 11 sizeBytes
  · have hd12 : (natToOctal sizeBytes).length = 12 := by
      have hle : (natToOctal sizeBytes).length ≤ 12 := natToOctal_length_le _ 12 (by omega) h
      have hgt : ¬ (natToOctal sizeBytes).length ≤ 11 := by
        intro hx
        exact absurd (natToOctal_lt sizeBytes 11 (by omega) hx) h11
      omega
    have hpad : padStart 11 '0' (natToOctal sizeBytes) = natToOctal sizeBytes := by
      unfold padStart
      rw [hd12]
      simp
    rw [hpad]
    have hlenmap : ((natToOctal sizeBytes).map Char.toNat).length = 12 := by simp [hd12]
    rw [List.take_append_eq_append_take, List.take_of_length_le (by omega), hlenmap,
      Nat.sub_self, List.take_zero, List.append_nil]
    unfold parseOctal
    rw [takeWhile_all _ _ (by
      intro b hb
      rcases List.mem_map.mp hb with ⟨c, hc, rfl⟩
      have := natToOctal_digit_bytes sizeBytes c hc
      unfold isOctByte
      simp
      omega)]
    exact parseOctalDigits_natToOctal sizeBytes

/-- C8 (amended): the 12-byte octal size field round-trips for every
content size below `8^12` (the writer keeps all 12 high digits and only
drops the NUL terminator between `8^11` and `8^12`); at `8^12` digits
are truncated and the round-trip fails. -/
theorem claim_C8_size_roundtrip (name : String) (sizeBytes : Nat) (mtime : Int) :
    (sizeBytes < 8 ^ 12 →
      parseOctal (slice (buildUstarHeader name sizeBytes mtime) 124 12) = sizeBytes) ∧
      parseOctal (slice (buildUstarHeader "a" (8 ^ 12) 0) 124 12) ≠ 8 ^ 12 := by
  constructor
  · intro h
    rw [(buildUstarHeader_fields name sizeBytes mtime).1]
    exact parse_size_field sizeBytes h
  · decide

/-- C8 counterexample to the claimed bound: at `sizeBytes = 8^11`
(octal representation no longer fits in 11 digits, so per the claim the
round-trip guarantee should be lost) parsing the produced size field
still yields exactly `8^11`. -/
theorem claim_C8_counterexample :
    parseOctal (slice (buildUstarHeader "a" (8 ^ 11) 0) 124 12) = 8 ^ 11 := by
  decide

theorem claim_C8_size_roundtrip_witness :
    (7 : Nat) < 8 ^ 12 ∧
      parseOctal (slice (buildUstarHeader "w.bin" 7 3) 124 12) = 7 :=
  ⟨by norm_num, (claim_C8_size_roundtrip "w.bin" 7 3).1 (by norm_num)⟩

end EnriVision

namespace EnriVision

/-- What `writeChecksum buf buf.sum` leaves at 148..155, and that
blanking the field back to spaces recovers the summed buffer. -/
theorem writeChecksum_spec (buf : List Nat) (hlen : buf.length = 512)
    (h256 : ∀ b ∈ buf, b < 256)
    (hsp : slice buf 148 8 = List.replicate 8 32) :
    parseOctal (slice (writeChecksum buf buf.sum) 148 8) =
        (writeBytes (writeChecksum buf buf.sum) 148 (List.replicate 8 32)).sum ∧
      ∃ ds, slice (writeChecksum buf buf.sum) 148 8 = ds ++ [0, 32] ∧
        ds.length = 6 ∧ ∀ b ∈ ds, 48 ≤ b ∧ b ≤ 55 := by
  have hck : buf.sum < 8 ^ 6 := by
    have hle : buf.sum ≤ buf.length * 255 :=
      sum_le_of_all_lt buf 255 (by
        intro b hb
        have := h256 b hb
        omega)
    rw [hlen] at hle
    norm_num at hle ⊢
    omega
  have hd6 : (natToOctal buf.sum).length ≤ 6 := natToOctal_length_le _ 6 (by omega) hck
  have hl6 : (padStart 6 '0' (natToOctal buf.sum)).length = 6 := by
    rw [padStart_length]
    omega
  have hascii : utf8Bytes (String.mk (padStart 6 '0' (natToOctal buf.sum))) =
      (padStart 6 '0' (natToOctal buf.sum)).map Char.toNat := by
    rw [utf8Bytes_ascii]
    exact padOct_ascii 6 buf.sum
  have hmap6 : ((padStart 6 '0' (natToOctal buf.sum)).map Char.toNat).length = 6 := by
    simp [hl6]
  have hsrc : ((utf8Bytes (String.mk (padStart 6 '0' (natToOctal buf.sum)))).take 6) =
      (padStart 6 '0' (natToOctal buf.sum)).map Char.toNat := by
    rw [hascii, List.take_of_length_le (by omega)]
  -- abbreviate the three stages
  have hwc : writeChecksum buf buf.sum =
      writeBytes
        (writeBytes
          (writeBytes buf 148 ((padStart 6 '0' (natToOctal buf.sum)).map Char.toNat))
          154 [0])
        155 [32] := by
    unfold writeChecksum writeString
    rw [hsrc]
  set src := (padStart 6 '0' (natToOctal buf.sum)).map Char.toNat with hsrcdef
  set s1 := writeBytes buf 148 src with hs1
  set s2 := writeBytes s1 154 [0] with hs2
  set s3 := writeBytes s2 155 [32] with hs3
  have ls1 : s1.length = 512 := writeBytes_len512 _ _ _ (by rw [hmap6]; omega) hlen
  have ls2 : s2.length = 512 := writeBytes_len512 _ _ _ (by simp) ls1
  have ls3 : s3.length = 512 := writeBytes_len512 _ _ _ (by simp) ls2
  have hfield : slice s3 148 8 = src ++ [0, 32] := by
    have h8 : (8 : Nat) = 6 + (1 + 1) := by norm_num
    rw [h8, slice_add, slice_add]
    have p1 : slice s3 148 6 = src := by
      rw [hs3, slice_writeBytes_right _ _ _ (by simp [ls2]) _ _ (by omega)]
      rw [hs2, slice_writeBytes_right _ _ _ (by simp [ls1]) _ _ (by omega)]
      rw [hs1]
      have := slice_writeBytes_self buf 148 src (by rw [hmap6, hlen]; omega)
      rw [hmap6] at this
      exact this
    have p2 : slice s3 (148 + 6) 1 = [0] := by
      rw [hs3, slice_writeBytes_right _ _ _ (by simp [ls2]) _ _ (by omega)]
      rw [hs2]
      exact slice_writeBytes_self s1 154 [0] (by simp [ls1])
    have p3 : slice s3 (148 + 6 + 1) 1 = [32] := by
      rw [hs3]
      exact slice_writeBytes_self s2 155 [32] (by simp [ls2])
    rw [p1, p2, p3]
    rfl
  have hblank : writeBytes s3 148 (List.replicate 8 32) = buf := by
    apply List.ext_getElem?
    intro i
    have hw3 := writeBytes_getElem? s2 155 [32] (by simp [ls2])
    have hw2 := writeBytes_getElem? s1 154 [0] (by simp [ls1])
    have hw1 := writeBytes_getElem? buf 148 src (by rw [hmap6, hlen]; omega)
    have hwb := writeBytes_getElem? s3 148 (List.replicate 8 32) (by simp [ls3])
    rw [hwb i]
    by_cases hin : 148 ≤ i ∧ i < 148 + (List.replicate 8 (32 : Nat)).length
    · rw [if_pos hin]
      have hj : i - 148 < 8 := by
        simp at hin
        omega
      have hrep : (List.replicate 8 (32 : Nat))[i - 148]? = some 32 := by
        rw [List.getElem?_eq_getElem (by simp [hj]), List.getElem_replicate]
      rw [hrep]
      have hbuf : buf[i]? = some 32 := by
        have hs := congrArg (fun l => l[i - 148]?) hsp
        simp only [slice_getElem?] at hs
        rw [if_pos hj] at hs
        have harith : 148 + (i - 148) = i := by omega
        rw [harith] at hs
        rw [hs, List.getElem?_eq_getElem (by simp [hj]), List.getElem_replicate]
      rw [hbuf]
    · rw [if_neg hin]
      simp only [List.length_replicate] at hin
      rw [hs3, hw3 i, if_neg (by simp; omega), hs2, hw2 i, if_neg (by simp; omega),
        hs1, hw1 i, if_neg (by rw [hmap6]; omega)]
  have hsum : (writeBytes s3 148 (List.replicate 8 32)).sum = buf.sum := by
    rw [hblank]
  rw [hwc]
  refine ⟨?_, src, hfield, by rw [hsrcdef, hmap6], ?_⟩
  · rw [hfield, hsum]
    show parseOctal (src ++ 0 :: [32]) = buf.sum
    unfold parseOctal
    rw [takeWhile_append_stop _ 0 [32] (by rw [hsrcdef]; exact padOct_isOctByte 6 buf.sum)
      (by decide)]
    rw [hsrcdef]
    exact parseOctalDigits_padStart 6 buf.sum
  · intro b hb
    rw [hsrcdef] at hb
    rcases List.mem_map.mp hb with ⟨c, hc, rfl⟩
    exact padOct_digit_bytes 6 buf.sum c hc

/-- C3: in every produced header block, summing the 512 bytes with the
checksum field blanked to ASCII spaces gives exactly the value encoded
in the checksum field, which is 6 zero-padded octal digits followed by a
NUL and a space at offsets 148..155. -/
theorem claim_C3_header_checksum (name : String) (sizeBytes : Nat) (mtime : Int) :
    parseOctal (slice (buildUstarHeader name sizeBytes mtime) 148 8) =
        (writeBytes (buildUstarHeader name sizeBytes mtime) 148
          (List.replicate 8 32)).sum ∧
      ∃ ds, slice (buildUstarHeader name sizeBytes mtime) 148 8 = ds ++ [0, 32] ∧
        ds.length = 6 ∧ ∀ b ∈ ds, 48 ≤ b ∧ b ≤ 55 := by
  obtain ⟨-, buf, hlen, h256, hsp, heq⟩ := buildUstarHeader_fields name sizeBytes mtime
  rw [heq]
  exact writeChecksum_spec buf hlen h256 hsp

end EnriVision

namespace EnriVision

/-- A server on which every append fails with an offset conflict and the
authoritative offset never moves from `o`. -/
def conflictClient (o : Nat) : ProxyClient :=
  { append := fun _ => .error (.http 409), getOffset := fun _ => o }

/-- C6 counterexample: with a server that answers 409 and re-reports the
unchanged offset, `uploadChunkWithRetry` raises the HTTP 409 error after
consuming all 5 append attempts — the conflict neither returns the
re-queried offset nor is exempt from the retry ceiling. -/
theorem claim_C6_counterexample :
    uploadChunkWithRetry (conflictClient 0) 0 0 0 = (.error (.http 409), 5, 5) := by
  decide

theorem conflict_retryGo_error (client : ProxyClient) (offset : Nat)
    (happend : ∀ n, client.append n = .error (.http 409))
    (hget : ∀ n, client.getOffset n = offset) :
    ∀ fuel ac gc, 1 ≤ fuel →
      (uploadChunkWithRetryGo client offset fuel ac gc).1 = .error (.http 409) := by
  intro fuel
  induction fuel with
  | zero => intro ac gc h; omega
  | succ f ihf =>
    intro ac gc _
    unfold uploadChunkWithRetryGo
    rw [happend ac]
    dsimp only
    rw [hget gc, if_neg (by simp), if_neg (by decide)]
    by_cases hf : f = 0
    · subst hf
      rw [if_pos rfl]
    · rw [if_neg hf]
      exact ihf (ac + 1) (gc + 1) (by omega)

theorem conflict_retryGo_closed (o : Nat) :
    ∀ fuel ac gc, 1 ≤ fuel →
      uploadChunkWithRetryGo (conflictClient o) o fuel ac gc =
        (.error (.http 409), ac + fuel, gc + fuel) := by
  intro fuel
  induction fuel with
  | zero => intro ac gc h; omega
  | succ f ihf =>
    intro ac gc _
    unfold uploadChunkWithRetryGo
    rw [show (conflictClient o).append ac = Except.error (ChunkError.http 409) from rfl]
    dsimp only
    rw [show (conflictClient o).getOffset gc = o from rfl,
      if_neg (by simp), if_neg (by decide)]
    by_cases hf : f = 0
    · subst hf
      rw [if_pos rfl]
    · rw [if_neg hf, ihf (ac + 1) (gc + 1) (by omega)]
      simp only [Prod.mk.injEq, true_and]
      omega

/-- C6 (amended): on an offset conflict whose re-queried authoritative
offset differs from the expected offset, `uploadChunkWithRetry` returns
that offset instead of raising, without further attempts; a conflict
whose re-queried offset equals the expected offset is treated as a
retryable failure, consumes the attempts, and after all 5 the 409 error
is raised. -/
theorem claim_C6_conflict_resync :
    (∀ (client : ProxyClient) (offset ac gc : Nat),
      client.append ac = .error (.http 409) →
      client.getOffset gc ≠ offset →
      uploadChunkWithRetry client offset ac gc =
        (.ok (client.getOffset gc), ac + 1, gc + 1)) ∧
      ∀ o : Nat, uploadChunkWithRetry (conflictClient o) o 0 0 =
        (.error (.http 409), 5, 5) := by
  constructor
  · intro client offset ac gc h409 hne
    unfold uploadChunkWithRetry uploadChunkWithRetryGo
    rw [h409]
    simp [hne]
  · intro o
    unfold uploadChunkWithRetry
    simpa using conflict_retryGo_closed o 5 0 0 (by omega)

/-- A client answering 409 once and then reporting offset 42. -/
def resyncClient : ProxyClient :=
  { append := fun _ => .error (.http 409), getOffset := fun _ => 42 }

theorem claim_C6_conflict_resync_witness :
    resyncClient.append 0 = .error (.http 409) ∧ resyncClient.getOffset 0 ≠ 7 ∧
      uploadChunkWithRetry resyncClient 7 0 0 = (.ok 42, 1, 1) := by
  refine ⟨by decide, by decide, ?_⟩
  have h := (claim_C6_conflict_resync).1 resyncClient 7 0 0 (by decide) (by decide)
  simpa using h

theorem chunkLoop_chunks_ne_nil (layout : List TarLayoutEntry) (total : Nat) :
    ∀ (position : Nat) (s : ReadState) (c : Nat) (ch : List Nat),
      ch ∈ chunkLoop layout total position s c → ch ≠ [] := by
  intro position s c
  induction position, s, c using chunkLoop.induct layout total with
  | case1 position s c hlt desired res hemp =>
    intro ch hch
    rw [chunkLoop] at hch
    simp only [hlt, hemp, if_true, dite_true, ite_true] at hch
    cases hch
  | case2 position s c hlt desired res hemp ih =>
    intro ch hch
    rw [chunkLoop] at hch
    simp only [hlt, hemp, if_true, if_false, dite_true, dite_false, ite_true,
      ite_false, Bool.false_eq_true] at hch
    rcases List.mem_cons.mp hch with rfl | hmem
    · simpa [List.isEmpty_iff] using hemp
    · exact ih ch hmem
  | case3 position s c hge =>
    intro ch hch
    rw [chunkLoop] at hch
    simp only [hge, dite_false, ite_false, if_false] at hch
    cases hch

/-- From a valid stream with `o < total`, the chunk list is non-empty and
its first chunk holds at least one byte. -/
theorem iterateChunks_first_chunk (entries : List TarEntry) (t : TarStreamModel)
    (hmk : TarStream.mk? entries = .ok t)
    (hws : ∀ e ∈ entries, e.source.wellSized)
    (o : Nat) (c : Int) (ho : o < t.totalSizeBytes) :
    ∃ ch rest, TarStream.iterateChunks t (o : Int) c = ch :: rest ∧ ch.length ≠ 0 := by
  obtain ⟨hwf, htot, _⟩ := mk?_ok_facts entries t hmk hws
  have hflat := iterateChunks_flatten t hwf htot o c (by omega)
  have hlen : ((TarStream.iterateChunks t (o : Int) c).flatten).length =
      t.totalSizeBytes - o := by
    rw [hflat, List.length_drop, htot]
  match hiter : TarStream.iterateChunks t (o : Int) c with
  | [] =>
    rw [hiter] at hlen
    simp at hlen
    omega
  | ch :: rest =>
    refine ⟨ch, rest, rfl, ?_⟩
    have hne : ch ≠ [] := by
      apply chunkLoop_chunks_ne_nil t.layout t.totalSizeBytes o
        (TarStream.seek t o) ((max 1 c).toNat) ch
      have : TarStream.iterateChunks t (o : Int) c =
          chunkLoop t.layout t.totalSizeBytes o (TarStream.seek t o) ((max 1 c).toNat) := by
        unfold TarStream.iterateChunks
        have h1 : (max 0 (o : Int)).toNat = o := by simp
        rw [h1, if_neg (by omega)]
      rw [← this, hiter]
      simp
    simpa [List.length_eq_zero] using hne

/-- The upload loop hits the retry routine's raised 409 on the first
chunk of the first iteration. -/
theorem uploadTarLoop_conflict (client : ProxyClient) (t : TarStreamModel)
    (chunkSize : Int) (o ac gc fuel : Nat)
    (ho : o < t.totalSizeBytes)
    (hne : ∃ ch rest, TarStream.iterateChunks t (o : Int) chunkSize = ch :: rest ∧
      ch.length ≠ 0)
    (happend : ∀ n, client.append n = .error (.http 409))
    (hget : ∀ n, client.getOffset n = o) :
    uploadTarLoop client t chunkSize o ac gc (fuel + 1) = .chunkError (.http 409) := by
  obtain ⟨ch, rest, hiter, hchlen⟩ := hne
  have herr : (uploadChunkWithRetry client o ac gc).1 = .error (.http 409) :=
    conflict_retryGo_error client o happend hget 5 ac gc (by omega)
  have hps : uploadChunkWithRetry client o ac gc =
      (Except.error (ChunkError.http 409), (uploadChunkWithRetry client o ac gc).2.1,
        (uploadChunkWithRetry client o ac gc).2.2) := by
    rw [← herr]
  have hsend : sendChunks client t.totalSizeBytes o ac gc false (ch :: rest) =
      (.error (.http 409), (uploadChunkWithRetry client o ac gc).2.1,
        (uploadChunkWithRetry client o ac gc).2.2) := by
    unfold sendChunks
    rw [if_neg (by omega)]
    rw [hps]
  unfold uploadTarLoop
  rw [if_pos ho, hiter, hsend]

/-- C5 (amended): an upload in which every append fails with a conflict
that keeps reporting the same unchanged offset terminates — but with the
HTTP 409 conflict error surfaced by the retry routine after its 5
attempts, not with the distinct stalled-progress error. -/
theorem claim_C5_conflict_terminates (entries : List TarEntry) (t : TarStreamModel)
    (hmk : TarStream.mk? entries = .ok t)
    (hws : ∀ e ∈ entries, e.source.wellSized)
    (client : ProxyClient) (chunkSize : Int) (o ac gc fuel : Nat)
    (ho : o < t.totalSizeBytes)
    (happend : ∀ n, client.append n = .error (.http 409))
    (hget : ∀ n, client.getOffset n = o) :
    uploadTarLoop client t chunkSize o ac gc (fuel + 1) = .chunkError (.http 409) ∧
      uploadTarLoop client t chunkSize o ac gc (fuel + 1) ≠ UploadResult.stalled := by
  have h := uploadTarLoop_conflict client t chunkSize o ac gc fuel ho
    (iterateChunks_first_chunk entries t hmk hws o chunkSize ho) happend hget
  exact ⟨h, by rw [h]; intro hx; cases hx⟩

/-- C5 counterexample: in the all-conflict scenario the multi-file upload
loop does not surface the stalled-progress error; it surfaces the
HTTP 409 raised by the chunk-upload routine. -/
theorem claim_C5_counterexample :
    uploadTarLoop (conflictClient 0) sampleStream 512 0 0 0 5 =
        .chunkError (.http 409) ∧
      UploadResult.chunkError (.http 409) ≠ UploadResult.stalled := by
  constructor
  · have h5 : (5 : Nat) = 4 + 1 := by norm_num
    rw [h5]
    apply uploadTarLoop_conflict (conflictClient 0) sampleStream 512 0 0 0 4
      (by decide)
      (iterateChunks_first_chunk sampleEntries sampleStream (by decide) (by decide)
        0 512 (by decide))
      (fun n => rfl) (fun n => rfl)
  · intro hx
    cases hx

theorem claim_C5_conflict_terminates_witness :
    TarStream.mk? sampleEntries = .ok sampleStream ∧
      512 < sampleStream.totalSizeBytes ∧
      uploadTarLoop (conflictClient 512) sampleStream 100 512 0 0 6 =
        .chunkError (.http 409) := by
  refine ⟨by decide, by decide, ?_⟩
  have h6 : (6 : Nat) = 5 + 1 := by norm_num
  rw [h6]
  exact (claim_C5_conflict_terminates sampleEntries sampleStream (by decide) (by decide)
    (conflictClient 512) 100 512 0 0 5 (by decide) (fun n => rfl) (fun n => rfl)).1

end EnriVision
